import Mathlib

/-! # node-uriparser: the query decoder and the result assembler of `parse`

A shallow embedding of `parse` from `src/node-uriparser.cc`.

Conventions of the embedding.

* A string is the list of its characters. The URL is built from a NUL-terminated buffer
  (`std::string url(*v8Url)`), so neither the URL nor the components the grammar cuts out of it
  hold the NUL character; a list of characters stands for such a string, and a `char *` into
  the tokenisation buffer is the list of characters up to its terminator.
* `strtok_r` is a function from the text at the scan position to the token and the text left
  behind the token (the save pointer).
* A V8 object is a list of (property name, value) pairs in insertion order with `Set`, `Has`;
  properties inherited from the prototypes of the host runtime, and the order in which that
  runtime enumerates names that look like array indices, are outside the embedding.
* The grammar `http::ParseHttpUrl` is a parameter: a total function from the URL to its
  components.
* The `while` loop of the decoder runs on fuel; `none` stands for a run that exhausts the fuel
  or dereferences a null pointer. The theorems show that this never happens.
-/

namespace UriParser

/-- The content of a C string or of a `std::string`: its characters, terminator excluded. -/
abbrev Str := List Char

/-! ## Constants (lines 41-53) -/

/-- The macro `ENCODED_BRACKETS`. -/
def ENCODED_BRACKETS : Str := "%5B%5D".toList

/-- The macro `BRACKETS`. -/
def BRACKETS : Str := "[]".toList

def kProtocol : Nat := 1
def kAuth : Nat := 1 <<< 1
def kHost : Nat := 1 <<< 2
def kPort : Nat := 1 <<< 3
def kQuery : Nat := 1 <<< 4
def kFragment : Nat := 1 <<< 5
def kPath : Nat := 1 <<< 6
def kAll : Nat := kProtocol ||| kAuth ||| kHost ||| kPort ||| kQuery ||| kFragment ||| kPath

/-- The delimiter string `amp` of line 121. -/
def amp : Str := "&".toList

/-- The delimiter string `sum` of line 121. -/
def sum : Str := "=".toList

/-! ## The C library functions used by the decoder -/

/-- Whether `c` is one of the delimiter characters. -/
def isDelim (delim : Str) (c : Char) : Bool := delim.contains c

/-- The function `strtok_r(s, delim, &save)` on the text `s` at the scan position: leading
delimiters are skipped; when nothing is left the result is `NULL` (`none`); otherwise the token
runs up to the next delimiter, which is overwritten by the terminator, and the save pointer is
set behind it (or to the end of the text when no delimiter follows). -/
def strtok_r (s delim : Str) : Option (Str × Str) :=
  match s.dropWhile (isDelim delim) with
  | [] => none
  | c :: cs =>
    some ((c :: cs).takeWhile (fun x => !isDelim delim x),
          ((c :: cs).dropWhile (fun x => !isDelim delim x)).drop 1)

/-- Whether `strncmp(a, b, n) == 0`: the first `n` characters of `a` and `b` agree (the
comparison also stops, with equality, where both strings end). -/
def strncmpEq (a b : Str) (n : Nat) : Bool := a.take n == b.take n

/-! ## Containers -/

/-- The call `paramsMap.find(key)` on a `std::map`, as a lookup in the list of its entries. -/
def mapFind {β : Type} : List (Str × β) → Str → Option β
  | [], _ => none
  | (k, v) :: m, key => if k = key then some v else mapFind m key

/-- The statement `paramsMap[key].push_back(value)`: the value is appended to the list of `key`,
which is created empty when `key` has no entry. -/
def mapPushBack : List (Str × List Str) → Str → Str → List (Str × List Str)
  | [], key, value => [(key, [value])]
  | (k, vs) :: m, key, value =>
    if k = key then (k, vs ++ [value]) :: m else (k, vs) :: mapPushBack m key value

/-- The call `obj->Set(key, value)` on a V8 object: an existing property is overwritten in place,
a new one is added behind the others. -/
def objSet {β : Type} : List (Str × β) → Str → β → List (Str × β)
  | [], key, value => [(key, value)]
  | (k, v) :: o, key, value =>
    if k = key then (k, value) :: o else (k, v) :: objSet o key value

/-- The call `obj->Has(key)` on a V8 object. -/
def objHas {β : Type} (o : List (Str × β)) (key : Str) : Bool := (mapFind o key).isSome

/-! ## The data model -/

/-- The value of a key of the `query` object: a string, or an array of strings. -/
inductive QueryValue where
  | string (s : Str)
  | array (vals : List Str)
  deriving DecidableEq, Repr

/-- The local variables of the decoder that live across the iterations of its loop
(lines 116-129). -/
structure QueryState where
  paramsMap : List (Str × List Str)
  paramsOrder : List Str
  qsSuffix : List (Str × Str)
  empty : Bool
  arrayBrackets : Bool
  deriving DecidableEq, Repr

/-- The state of the decoder before the loop (lines 116-129). -/
def QueryState.init : QueryState :=
  { paramsMap := [], paramsOrder := [], qsSuffix := [], empty := true, arrayBrackets := false }

/-! ## The decoder (lines 115-188) -/

/-- Lines 135-150: the test of the key for a trailing array marker. The result is the key as it
is left in the buffer and the marker that was cut, if any. The encoded marker is tested first;
each test needs the key to be strictly longer than the marker. -/
def stripBrackets (queryParamKey : Str) : Str × Option Str :=
  let len := queryParamKey.length
  if len > ENCODED_BRACKETS.length ∧
      strncmpEq (queryParamKey.drop (len - ENCODED_BRACKETS.length)) ENCODED_BRACKETS
        ENCODED_BRACKETS.length = true then
    (queryParamKey.take (len - ENCODED_BRACKETS.length), some ENCODED_BRACKETS)
  else if len > BRACKETS.length ∧
      strncmpEq (queryParamKey.drop (len - BRACKETS.length)) BRACKETS BRACKETS.length = true then
    (queryParamKey.take (len - BRACKETS.length), some BRACKETS)
  else
    (queryParamKey, none)

/-- Lines 133 and 135-156: the body of the loop for a token with a key, behind the first call of
`strtok_r`, which has cut `queryParamKey` and left `queryParamPtr`. -/
def paramStep (st : QueryState) (queryParamKey queryParamPtr : Str) : QueryState :=
  let key := (stripBrackets queryParamKey).1
  let marker := (stripBrackets queryParamKey).2
  let queryParamValue := (strtok_r queryParamPtr sum).map Prod.fst
  { empty := false
    arrayBrackets := st.arrayBrackets || marker.isSome
    qsSuffix := match marker with
      | some m => objSet st.qsSuffix key m
      | none => st.qsSuffix
    paramsOrder :=
      if mapFind st.paramsMap key = none then st.paramsOrder ++ [key] else st.paramsOrder
    paramsMap := mapPushBack st.paramsMap key (queryParamValue.getD []) }

/-- Lines 131-157: one iteration of the loop on the token `queryParam`. A token whose first
character is that of `sum` is passed over. `none` is the dereference of the null pointer that a
failing first `strtok_r` would hand to `strlen`. -/
def queryStep (st : QueryState) (queryParam : Str) : Option QueryState :=
  if queryParam.head? ≠ sum.head? then
    match strtok_r queryParam sum with
    | none => none
    | some (queryParamKey, queryParamPtr) => some (paramStep st queryParamKey queryParamPtr)
  else
    some st

/-- Lines 126-159: the loop `while (queryParam)`, entered with the result of the last call
`strtok_r(_, amp, &queryParamPairPtr)`; `none` when the fuel runs out. -/
def queryLoop : Nat → QueryState → Option (Str × Str) → Option QueryState
  | 0, _, _ => none
  | _ + 1, st, none => some st
  | fuel + 1, st, some (queryParam, queryParamPairPtr) =>
    match queryStep st queryParam with
    | none => none
    | some st1 => queryLoop fuel st1 (strtok_r queryParamPairPtr amp)

/-- Lines 162-178: the object `queryData`, filled key by key in the order of `paramsOrder`. -/
def buildQueryData (st : QueryState) : List (Str × QueryValue) :=
  st.paramsOrder.foldl
    (fun queryData key =>
      let vals := (mapFind st.paramsMap key).getD []
      let arrSize := vals.length
      if arrSize > 1 ∨ objHas st.qsSuffix key = true then
        objSet queryData key (QueryValue.array vals)
      else
        objSet queryData key (QueryValue.string (vals.headD [])))
    []

/-- The outcome of the decoder: the two objects and the two flags that decide whether they
are attached to the result. -/
structure Decoded where
  queryData : List (Str × QueryValue)
  qsSuffix : List (Str × Str)
  empty : Bool
  arrayBrackets : Bool
  deriving DecidableEq, Repr

/-- Lines 116-178: the decoder on the query string. -/
def decodeQuery (query : Str) : Option Decoded :=
  match queryLoop (query.length + 1) QueryState.init (strtok_r query amp) with
  | none => none
  | some st =>
    some { queryData := buildQueryData st, qsSuffix := st.qsSuffix, empty := st.empty,
           arrayBrackets := st.arrayBrackets }

/-! ## The assembler (lines 66-202) -/

/-- An argument of the call, as far as `parse` inspects it: `IsString` with the characters of the
string, `IsNumber` with its `Int32Value`, the value `undefined` of an argument that is not
given, or any other value. -/
inductive JsValue where
  | undefined
  | string (s : Str)
  | number (int32Value : Int)
  | other
  deriving DecidableEq, Repr

/-- The exceptions `parse` throws, with their messages. -/
inductive JsException where
  | TypeError (msg : String)
  | SyntaxError (msg : String)
  deriving DecidableEq, Repr

/-- The structure `http::url` filled by the grammar `http::ParseHttpUrl`. -/
structure HttpUrl where
  protocol : Str
  user : Str
  password : Str
  host : Str
  port : Str
  path : Str
  query : Str
  fragment : Str
  deriving DecidableEq, Repr

/-- The object `authData` of lines 99-101. -/
structure AuthData where
  user : Str
  password : Str
  deriving DecidableEq, Repr

/-- The object `data` that `parse` returns: each property is set or absent. -/
structure ParsedUrl where
  protocol : Option Str := none
  auth : Option AuthData := none
  host : Option Str := none
  port : Option Str := none
  query : Option (List (Str × QueryValue)) := none
  queryArraySuffix : Option (List (Str × Str)) := none
  fragment : Option Str := none
  path : Option Str := none
  deriving DecidableEq, Repr

/-- The test `opts & flag` of the options, a 32-bit integer in two's complement, against one of
the constants of `parseOptions`. -/
def hasFlag (opts : Int) (flag : Nat) : Bool := (opts % 2 ^ 32).toNat &&& flag != 0

/-- The characters of a buffer up to its first NUL: what `std::string url(*v8Url)` keeps of the
characters of the JavaScript string. -/
def c_str (s : Str) : Str := s.takeWhile (fun c => c != Char.ofNat 0)

/-- Lines 69-77: the options, `kAll` unless the second argument is a number. -/
def parseOpts (args : List JsValue) : Int :=
  match args.getD 1 JsValue.undefined with
  | JsValue.number n => n
  | _ => (kAll : Nat)

/-- Lines 91-95: the protocol, with the throw of `THROW_IF_EMPTY`. -/
def setProtocol (uri : HttpUrl) (opts : Int) (data : ParsedUrl) : Except JsException ParsedUrl :=
  if uri.protocol ≠ [] ∧ hasFlag opts kProtocol = true then
    if uri.protocol = [] then
      Except.error (JsException.SyntaxError "Bad string given")
    else
      Except.ok { data with protocol := some uri.protocol }
  else
    Except.ok data

/-- Lines 97-105: the credentials. -/
def setAuth (uri : HttpUrl) (opts : Int) (data : ParsedUrl) : ParsedUrl :=
  if hasFlag opts kAuth = true then
    if uri.user ≠ [] ∧ uri.password ≠ [] then
      { data with auth := some { user := uri.user, password := uri.password } }
    else data
  else data

/-- Lines 107-109: the host. -/
def setHost (uri : HttpUrl) (opts : Int) (data : ParsedUrl) : ParsedUrl :=
  if uri.host ≠ [] ∧ hasFlag opts kHost = true then { data with host := some uri.host } else data

/-- Lines 111-113: the port. -/
def setPort (uri : HttpUrl) (opts : Int) (data : ParsedUrl) : ParsedUrl :=
  if uri.port ≠ [] ∧ hasFlag opts kPort = true then { data with port := some uri.port } else data

/-- Lines 115-188: the query; the decoder runs only on a query that is not empty and under the
flag `kQuery`, and its objects are attached as lines 181-186 say. -/
def setQuery (uri : HttpUrl) (opts : Int) (data : ParsedUrl) : Option ParsedUrl :=
  if uri.query ≠ [] ∧ hasFlag opts kQuery = true then
    match decodeQuery uri.query with
    | none => none
    | some d =>
      if d.empty = false then
        if d.arrayBrackets = true then
          some { data with query := some d.queryData, queryArraySuffix := some d.qsSuffix }
        else
          some { data with query := some d.queryData }
      else
        some data
  else
    some data

/-- Lines 190-192: the fragment. -/
def setFragment (uri : HttpUrl) (opts : Int) (data : ParsedUrl) : ParsedUrl :=
  if uri.fragment ≠ [] ∧ hasFlag opts kFragment = true then
    { data with fragment := some uri.fragment }
  else data

/-- Lines 194-198: the path, with its default. -/
def setPath (uri : HttpUrl) (opts : Int) (data : ParsedUrl) : ParsedUrl :=
  if uri.path ≠ [] ∧ hasFlag opts kPath = true then
    { data with path := some uri.path }
  else
    { data with path := some "/".toList }

/-- Lines 87-201: the assembly of the result from the output of the grammar. -/
def assemble (uri : HttpUrl) (opts : Int) : Option (Except JsException ParsedUrl) :=
  match setProtocol uri opts {} with
  | Except.error e => some (Except.error e)
  | Except.ok data =>
    match setQuery uri opts (setPort uri opts (setHost uri opts (setAuth uri opts data))) with
    | none => none
    | some data => some (Except.ok (setPath uri opts (setFragment uri opts data)))

/-- The function `parse` (lines 66-202) on the arguments of the call, with the grammar
`http::ParseHttpUrl` as a parameter. The outer `none` is a decoder run without result. -/
def parse (ParseHttpUrl : Str → HttpUrl) (args : List JsValue) :
    Option (Except JsException ParsedUrl) :=
  match args.head? with
  | some (JsValue.string s) =>
    let opts := parseOpts args
    let url := c_str s
    if url.length = 0 then
      some (Except.error (JsException.TypeError "String mustn't be empty"))
    else
      assemble (ParseHttpUrl url) opts
  | _ => some (Except.error (JsException.TypeError "First argument has to be string"))

/-! ## Notions used to state the properties of the decoder -/

/-- The tokens of a query string: the pieces between its separators that are not empty,
from left to right. -/
def tokens (q : Str) : List Str := (q.splitOn '&').filter (fun t => !t.isEmpty)

/-- A token survives when its first character is not the equals sign. -/
def survives (t : Str) : Bool := t.head? != some '='

/-- The surviving tokens of a query string, from left to right. -/
def survivors (q : Str) : List Str := (tokens q).filter survives

/-- The key of a token as the first `strtok_r` of line 134 cuts it. -/
def rawKey (t : Str) : Str := t.takeWhile (fun c => c != '=')

/-- The text the first `strtok_r` of line 134 leaves behind the key of a token. -/
def keyRest (t : Str) : Str := (t.dropWhile (fun c => c != '=')).drop 1

/-- The key under which the decoder files a token (lines 134-150). -/
def tokenKey (t : Str) : Str := (stripBrackets (rawKey t)).1

/-- The marker the decoder cuts from the key of a token, if any (lines 136-150). -/
def tokenMarker (t : Str) : Option Str := (stripBrackets (rawKey t)).2

/-- The value the decoder files for a token (lines 152 and 156). -/
def tokenValue (t : Str) : Str := ((strtok_r (keyRest t) sum).map Prod.fst).getD []

/-- The values of the surviving tokens of `q` filed under the key `k`, from left to right. -/
def valuesFor (q k : Str) : List Str :=
  ((survivors q).filter (fun t => tokenKey t = k)).map tokenValue

/-- The strings a value of the `query` object holds: the string itself, or the elements of
the array. -/
def QueryValue.values : QueryValue → List Str
  | QueryValue.string s => [s]
  | QueryValue.array vals => vals

/-- The value of a token as the specification words it (section 4.2, step 3), for comparison
with `tokenValue`: everything behind the first equals sign of the token. -/
def specValue (t : Str) : Str := (t.dropWhile (fun c => c != '=')).drop 1

/-- The state of the decoder behind a surviving token. -/
def recordToken (st : QueryState) (t : Str) : QueryState := paramStep st (rawKey t) (keyRest t)

/-- The state of the decoder behind the loop. -/
def finalState (q : Str) : QueryState := (survivors q).foldl recordToken QueryState.init

/-- Adds a key to the keys seen so far, unless it is among them. -/
def addKey (acc : List Str) (k : Str) : List Str := if k ∈ acc then acc else acc ++ [k]

/-- The distinct keys of a sequence of keys, each at the place of its first occurrence. -/
def firstSeen (keys : List Str) : List Str := keys.foldl addKey []

/-- Lines 164-177: the value `queryData` gets for a key. -/
def queryValueOf (st : QueryState) (key : Str) : QueryValue :=
  let vals := (mapFind st.paramsMap key).getD []
  if vals.length > 1 ∨ objHas st.qsSuffix key = true then QueryValue.array vals
  else QueryValue.string (vals.headD [])

/-- The keys of `paramsOrder` are those with an entry in `paramsMap`. -/
def OrderInv (st : QueryState) : Prop :=
  ∀ k, k ∈ st.paramsOrder ↔ mapFind st.paramsMap k ≠ none

/-- The result of the assembler, property by property. -/
def assembled (uri : HttpUrl) (opts : Int) : ParsedUrl :=
  { protocol :=
      if uri.protocol ≠ [] ∧ hasFlag opts kProtocol = true then some uri.protocol else none
    auth :=
      if hasFlag opts kAuth = true ∧ uri.user ≠ [] ∧ uri.password ≠ [] then
        some { user := uri.user, password := uri.password }
      else none
    host := if uri.host ≠ [] ∧ hasFlag opts kHost = true then some uri.host else none
    port := if uri.port ≠ [] ∧ hasFlag opts kPort = true then some uri.port else none
    query :=
      if uri.query ≠ [] ∧ hasFlag opts kQuery = true ∧ (finalState uri.query).empty = false then
        some (buildQueryData (finalState uri.query))
      else none
    queryArraySuffix :=
      if uri.query ≠ [] ∧ hasFlag opts kQuery = true ∧ (finalState uri.query).empty = false ∧
          (finalState uri.query).arrayBrackets = true then
        some (finalState uri.query).qsSuffix
      else none
    fragment :=
      if uri.fragment ≠ [] ∧ hasFlag opts kFragment = true then some uri.fragment else none
    path := some (if uri.path ≠ [] ∧ hasFlag opts kPath = true then uri.path else "/".toList) }

/-- A sample output of the grammar, that of the URL `http://u:p@h.example:8080/p?x=1#f`. -/
def sampleUri : HttpUrl :=
  { protocol := "http".toList, user := "u".toList, password := "p".toList,
    host := "h.example".toList, port := "8080".toList, path := "/p".toList,
    query := "x=1".toList, fragment := "f".toList }

/-- A sample output of the grammar, that of the URL `http://u@h?=x&b[]=y`: a user without
password, no port, no path, no fragment. -/
def bareUri : HttpUrl :=
  { protocol := "http".toList, user := "u".toList, password := [], host := "h".toList,
    port := [], path := [], query := "=x&b[]=y".toList, fragment := [] }

/-- The tokens the loop of the decoder sees: the results of the calls of `strtok_r` with the
delimiter `amp` (lines 126 and 158), from the first to the last that is not `NULL`; the loop
runs on fuel. -/
def strtokAll : Nat → Option (Str × Str) → Option (List Str)
  | 0, _ => none
  | _ + 1, none => some []
  | fuel + 1, some (queryParam, queryParamPairPtr) =>
    (strtokAll fuel (strtok_r queryParamPairPtr amp)).map (fun ts => queryParam :: ts)

/-- The markers cut from the surviving tokens of `q` filed under the key `k`, from left to
right. -/
def markersFor (q k : Str) : List Str :=
  ((survivors q).filter (fun t => tokenKey t = k)).filterMap tokenMarker

/-- The token of the canonical form for a key, its suffix entry (if any) and one of its values:
the key, the marker, the equals sign and the value. -/
def canonToken (key : Str) (marker : Option Str) (value : Str) : Str :=
  key ++ marker.getD [] ++ '=' :: value

/-- The tokens of the canonical form of an outcome of the decoder: the keys of `queryData` in
their order and, for each key, its values in their order. -/
def canonTokens (d : Decoded) : List Str :=
  d.queryData.flatMap (fun kv => kv.2.values.map (canonToken kv.1 (mapFind d.qsSuffix kv.1)))

/-- The canonical form of an outcome of the decoder (section 8 of the specification): its
canonical tokens joined by the separator. -/
def canon (d : Decoded) : Str := List.intercalate ['&'] (canonTokens d)

/-- The outcome of the decoder on a query string, from the state behind its loop. -/
def outcome (q : Str) : Decoded :=
  { queryData := buildQueryData (finalState q), qsSuffix := (finalState q).qsSuffix,
    empty := (finalState q).empty, arrayBrackets := (finalState q).arrayBrackets }

/-! ## Tokenisation -/

theorem isDelim_amp (c : Char) : isDelim amp c = (c == '&') := by
  simp only [isDelim, amp, String.toList, List.contains, List.elem]
  cases c == '&' <;> rfl

theorem isDelim_sum (c : Char) : isDelim sum c = (c == '=') := by
  simp only [isDelim, sum, String.toList, List.contains, List.elem]
  cases c == '=' <;> rfl

theorem isDelim_amp_fun : isDelim amp = fun c => c == '&' := funext isDelim_amp

theorem not_isDelim_amp_fun : (fun x => !isDelim amp x) = fun c => c != '&' := by
  funext c; rw [isDelim_amp]; rfl

theorem isDelim_sum_fun : isDelim sum = fun c => c == '=' := funext isDelim_sum

theorem not_isDelim_sum_fun : (fun x => !isDelim sum x) = fun c => c != '=' := by
  funext c; rw [isDelim_sum]; rfl

/-- The function `strtok_r` with the delimiter `&`, in closed form. -/
theorem strtok_r_amp (s : Str) :
    strtok_r s amp =
      match s.dropWhile (fun c => c == '&') with
      | [] => none
      | c :: cs => some ((c :: cs).takeWhile (fun c => c != '&'),
          ((c :: cs).dropWhile (fun c => c != '&')).drop 1) := by
  simp only [strtok_r, isDelim_amp_fun]
  rfl

/-- The function `strtok_r` with the delimiter `=`, in closed form. -/
theorem strtok_r_sum (s : Str) :
    strtok_r s sum =
      match s.dropWhile (fun c => c == '=') with
      | [] => none
      | c :: cs => some ((c :: cs).takeWhile (fun c => c != '='),
          ((c :: cs).dropWhile (fun c => c != '=')).drop 1) := by
  simp only [strtok_r, isDelim_sum_fun]
  rfl

/-- The fields of a text cut at the separator: the first field runs up to the first separator. -/
theorem splitOn_eq (s : Str) :
    s.splitOn '&' =
      match s.dropWhile (fun c => c != '&') with
      | [] => [s.takeWhile (fun c => c != '&')]
      | _ :: r => s.takeWhile (fun c => c != '&') :: r.splitOn '&' := by
  induction s with
  | nil => rfl
  | cons c cs ih =>
    simp only [List.splitOn] at ih ⊢
    rw [List.splitOnP_cons]
    by_cases h : c = '&'
    · subst h; simp
    · simp [h]
      rw [ih]
      split <;> simp [List.modifyHead]

theorem tokens_nil : tokens [] = [] := rfl

theorem tokens_cons_amp (cs : Str) : tokens ('&' :: cs) = tokens cs := by
  simp [tokens, List.splitOn, List.splitOnP_cons]

theorem tokens_cons_ne (c : Char) (cs : Str) (h : c ≠ '&') :
    tokens (c :: cs) =
      (c :: cs.takeWhile (fun c => c != '&')) ::
        tokens ((cs.dropWhile (fun c => c != '&')).drop 1) := by
  unfold tokens
  rw [splitOn_eq]
  have h1 : (c :: cs).dropWhile (fun c => c != '&') = cs.dropWhile (fun c => c != '&') := by
    simp [List.dropWhile_cons, h]
  have h2 : (c :: cs).takeWhile (fun c => c != '&') = c :: cs.takeWhile (fun c => c != '&') := by
    simp [List.takeWhile_cons, h]
  rw [h1, h2]
  cases hd : cs.dropWhile (fun c => c != '&') with
  | nil => simp [List.filter]
  | cons x r => simp [List.filter]

/-- What `strtok_r` with the delimiter `&` returns, against the tokens of the text: `NULL`
when there is none, otherwise the first token and a shorter text that holds the others. -/
theorem strtok_r_amp_tokens (s : Str) :
    (strtok_r s amp = none ∧ tokens s = []) ∨
    ∃ t rest, strtok_r s amp = some (t, rest) ∧ t ≠ [] ∧ tokens s = t :: tokens rest ∧
      rest.length < s.length := by
  induction s with
  | nil => left; exact ⟨rfl, rfl⟩
  | cons c cs ih =>
    by_cases h : c = '&'
    · subst h
      have e : strtok_r ('&' :: cs) amp = strtok_r cs amp := by
        simp [strtok_r_amp, List.dropWhile_cons]
      rw [e, tokens_cons_amp]
      rcases ih with ih | ⟨t, rest, h1, h2, h3, h4⟩
      · left; exact ih
      · right; exact ⟨t, rest, h1, h2, h3, by simp; omega⟩
    · right
      refine ⟨c :: cs.takeWhile (fun c => c != '&'),
        (cs.dropWhile (fun c => c != '&')).drop 1, ?_, by simp, tokens_cons_ne c cs h, ?_⟩
      · simp [strtok_r_amp, List.dropWhile_cons, List.takeWhile_cons, h]
      · have := (List.dropWhile_sublist (fun c => c != '&') (l := cs)).length_le
        simp only [List.length_drop, List.length_cons]
        omega

/-! ## The loop of the decoder -/

theorem sum_head : sum.head? = some '=' := rfl

theorem survives_cons (c : Char) (cs : Str) : survives (c :: cs) = (c != '=') := by
  by_cases h : c = '=' <;> simp [survives, bne, h]

theorem queryStep_of_survives (st : QueryState) (t : Str) (ht : t ≠ []) (h : survives t = true) :
    queryStep st t = some (recordToken st t) := by
  cases t with
  | nil => exact absurd rfl ht
  | cons c cs =>
    rw [survives_cons] at h
    have hc : c ≠ '=' := by simpa using h
    have e : strtok_r (c :: cs) sum = some (rawKey (c :: cs), keyRest (c :: cs)) := by
      rw [strtok_r_sum]
      simp [List.dropWhile_cons, hc, rawKey, keyRest]
    simp [queryStep, sum_head, hc, e, recordToken]

theorem queryStep_of_not_survives (st : QueryState) (t : Str) (h : survives t = false) :
    queryStep st t = some st := by
  cases t with
  | nil => simp [survives] at h
  | cons c cs =>
    rw [survives_cons] at h
    have hc : c = '=' := by simpa using h
    simp [queryStep, sum_head, hc]

/-- The loop of the decoder ends, with the surviving tokens recorded from left to right, as
soon as the fuel exceeds the length of the text. -/
theorem queryLoop_eq (n : Nat) : ∀ (s : Str) (st : QueryState), s.length < n →
    queryLoop n st (strtok_r s amp) = some ((survivors s).foldl recordToken st) := by
  induction n with
  | zero => intro s st h; omega
  | succ n ih =>
    intro s st h
    rcases strtok_r_amp_tokens s with ⟨h1, h2⟩ | ⟨t, rest, h1, h2, h3, h4⟩
    · rw [h1]; simp [queryLoop, survivors, h2]
    · rw [h1]
      simp only [queryLoop, survivors, h3]
      cases hs : survives t with
      | true =>
        rw [queryStep_of_survives st t h2 hs]
        simp only [List.filter_cons, hs, if_true, List.foldl_cons]
        exact ih rest _ (by omega)
      | false =>
        rw [queryStep_of_not_survives st t hs]
        simp only [List.filter_cons, hs, List.foldl_cons]
        exact ih rest _ (by omega)

theorem decodeQuery_eq (q : Str) :
    decodeQuery q = some { queryData := buildQueryData (finalState q),
                           qsSuffix := (finalState q).qsSuffix,
                           empty := (finalState q).empty,
                           arrayBrackets := (finalState q).arrayBrackets } := by
  simp [decodeQuery, queryLoop_eq (q.length + 1) q QueryState.init (Nat.lt_succ_self _), finalState]

/-! ### Containers -/

theorem mapFind_mapPushBack (m : List (Str × List Str)) (k v k2 : Str) :
    mapFind (mapPushBack m k v) k2 =
      if k = k2 then some ((mapFind m k).getD [] ++ [v]) else mapFind m k2 := by
  induction m with
  | nil => simp [mapPushBack, mapFind]
  | cons e m ih =>
    obtain ⟨k1, vs⟩ := e
    by_cases h1 : k1 = k
    · subst h1
      by_cases h2 : k1 = k2 <;> simp [mapPushBack, mapFind, h2]
    · by_cases h2 : k = k2
      · subst h2
        simp [mapPushBack, mapFind, h1, ih]
      · have h2b : ¬ k2 = k := fun e => h2 e.symm
        by_cases h3 : k1 = k2 <;> simp [mapPushBack, mapFind, h1, h2, h2b, h3, ih]

theorem mapFind_objSet {β : Type} (o : List (Str × β)) (k : Str) (v : β) (k2 : Str) :
    mapFind (objSet o k v) k2 = if k = k2 then some v else mapFind o k2 := by
  induction o with
  | nil => simp [objSet, mapFind]
  | cons e o ih =>
    obtain ⟨k1, v1⟩ := e
    by_cases h1 : k1 = k
    · subst h1
      by_cases h2 : k1 = k2 <;> simp [objSet, mapFind, h2]
    · by_cases h2 : k = k2
      · subst h2
        simp [objSet, mapFind, h1, ih]
      · have h2b : ¬ k2 = k := fun e => h2 e.symm
        by_cases h3 : k1 = k2 <;> simp [objSet, mapFind, h1, h2, h2b, h3, ih]

theorem mapFind_append_single {β : Type} (o : List (Str × β)) (k : Str) (v : β) (k2 : Str) :
    mapFind (o ++ [(k, v)]) k2 = (mapFind o k2).orElse (fun _ => if k = k2 then some v else none) := by
  induction o with
  | nil => simp [mapFind]
  | cons e o ih =>
    obtain ⟨k1, v1⟩ := e
    by_cases h : k1 = k2 <;> simp [mapFind, h, ih]

theorem objSet_of_mapFind_none {β : Type} (o : List (Str × β)) (k : Str) (v : β)
    (h : mapFind o k = none) : objSet o k v = o ++ [(k, v)] := by
  induction o with
  | nil => rfl
  | cons e o ih =>
    obtain ⟨k1, v1⟩ := e
    by_cases h1 : k1 = k
    · simp [mapFind, h1] at h
    · simp only [mapFind, h1, if_false] at h
      simp [objSet, h1, ih h]

theorem foldl_objSet {β : Type} (f : Str → β) : ∀ (l : List Str) (acc : List (Str × β)),
    l.Nodup → (∀ k ∈ l, mapFind acc k = none) →
    l.foldl (fun o k => objSet o k (f k)) acc = acc ++ l.map (fun k => (k, f k)) := by
  intro l
  induction l with
  | nil => intro acc _ _; simp
  | cons k l ih =>
    intro acc hnd hacc
    rw [List.nodup_cons] at hnd
    rw [List.foldl_cons, objSet_of_mapFind_none acc k (f k) (hacc k (List.mem_cons_self _ _))]
    rw [ih _ hnd.2]
    · simp
    · intro k2 hk2
      rw [mapFind_append_single, hacc k2 (List.mem_cons_of_mem _ hk2)]
      have : k ≠ k2 := fun e => hnd.1 (e ▸ hk2)
      simp [this]

/-! ### The state behind a sequence of surviving tokens -/

theorem recordToken_paramsMap (st : QueryState) (t : Str) :
    (recordToken st t).paramsMap = mapPushBack st.paramsMap (tokenKey t) (tokenValue t) := rfl

theorem recordToken_paramsOrder (st : QueryState) (t : Str) :
    (recordToken st t).paramsOrder =
      if mapFind st.paramsMap (tokenKey t) = none then st.paramsOrder ++ [tokenKey t]
      else st.paramsOrder := rfl

theorem recordToken_qsSuffix (st : QueryState) (t : Str) :
    (recordToken st t).qsSuffix =
      match tokenMarker t with
      | some m => objSet st.qsSuffix (tokenKey t) m
      | none => st.qsSuffix := rfl

theorem recordToken_empty (st : QueryState) (t : Str) : (recordToken st t).empty = false := rfl

theorem recordToken_arrayBrackets (st : QueryState) (t : Str) :
    (recordToken st t).arrayBrackets = (st.arrayBrackets || (tokenMarker t).isSome) := rfl

/-- The values filed under a key grow by the values of the tokens of that key, in order. -/
theorem foldl_paramsMap (k : Str) : ∀ (ts : List Str) (st : QueryState),
    (mapFind (ts.foldl recordToken st).paramsMap k).getD [] =
      (mapFind st.paramsMap k).getD [] ++ (ts.filter (fun t => tokenKey t = k)).map tokenValue := by
  intro ts
  induction ts with
  | nil => intro st; simp
  | cons t ts ih =>
    intro st
    rw [List.foldl_cons, ih, recordToken_paramsMap, mapFind_mapPushBack]
    by_cases h : tokenKey t = k
    · subst h; simp
    · simp [h]

/-- A key has an entry in `paramsMap` exactly when it had one or a token brought it. -/
theorem foldl_paramsMap_none (k : Str) : ∀ (ts : List Str) (st : QueryState),
    mapFind (ts.foldl recordToken st).paramsMap k = none ↔
      mapFind st.paramsMap k = none ∧ ∀ t ∈ ts, tokenKey t ≠ k := by
  intro ts
  induction ts with
  | nil => intro st; simp
  | cons t ts ih =>
    intro st
    rw [List.foldl_cons, ih, recordToken_paramsMap, mapFind_mapPushBack]
    by_cases h : tokenKey t = k
    · subst h; simp
    · simp [h]

theorem OrderInv_init : OrderInv QueryState.init := by
  intro k; simp [QueryState.init, mapFind]

theorem OrderInv_recordToken (st : QueryState) (t : Str) (h : OrderInv st) :
    OrderInv (recordToken st t) := by
  intro k
  rw [recordToken_paramsOrder, recordToken_paramsMap, mapFind_mapPushBack]
  by_cases hk : tokenKey t = k
  · subst hk
    by_cases hm : mapFind st.paramsMap (tokenKey t) = none
    · simp [hm]
    · simp [hm, (h _).2 hm]
  · have hk2 : ¬ k = tokenKey t := fun e => hk e.symm
    by_cases hm : mapFind st.paramsMap (tokenKey t) = none
    · simp [hm, hk, hk2, h k]
    · simp [hm, hk, h k]

theorem recordToken_paramsOrder_addKey (st : QueryState) (t : Str) (h : OrderInv st) :
    (recordToken st t).paramsOrder = addKey st.paramsOrder (tokenKey t) := by
  rw [recordToken_paramsOrder, addKey]
  by_cases hm : mapFind st.paramsMap (tokenKey t) = none
  · have : tokenKey t ∉ st.paramsOrder := fun hin => (h _).1 hin hm
    simp [hm, this]
  · simp [hm, (h _).2 hm]

theorem foldl_paramsOrder : ∀ (ts : List Str) (st : QueryState), OrderInv st →
    (ts.foldl recordToken st).paramsOrder = (ts.map tokenKey).foldl addKey st.paramsOrder := by
  intro ts
  induction ts with
  | nil => intro st _; rfl
  | cons t ts ih =>
    intro st h
    rw [List.foldl_cons, ih _ (OrderInv_recordToken st t h), recordToken_paramsOrder_addKey st t h]
    rfl

theorem foldl_empty : ∀ (ts : List Str) (st : QueryState),
    (ts.foldl recordToken st).empty = (st.empty && ts.isEmpty) := by
  intro ts
  induction ts with
  | nil => intro st; simp
  | cons t ts ih => intro st; rw [List.foldl_cons, ih, recordToken_empty]; simp

/-! ### First-seen order -/

theorem addKey_nodup (acc : List Str) (k : Str) (h : acc.Nodup) : (addKey acc k).Nodup := by
  unfold addKey
  split
  · exact h
  · rename_i hk
    exact List.Nodup.append h (List.nodup_singleton k) (by simpa using hk)

theorem mem_addKey (acc : List Str) (k x : Str) : x ∈ addKey acc k ↔ x ∈ acc ∨ x = k := by
  unfold addKey
  split
  · rename_i hk
    constructor
    · exact Or.inl
    · rintro (h | h)
      · exact h
      · exact h ▸ hk
  · simp

theorem foldl_addKey_nodup : ∀ (ks acc : List Str), acc.Nodup → (ks.foldl addKey acc).Nodup := by
  intro ks
  induction ks with
  | nil => intro acc h; exact h
  | cons k ks ih => intro acc h; exact ih _ (addKey_nodup acc k h)

theorem mem_foldl_addKey : ∀ (ks acc : List Str) (x : Str),
    x ∈ ks.foldl addKey acc ↔ x ∈ acc ∨ x ∈ ks := by
  intro ks
  induction ks with
  | nil => intro acc x; simp
  | cons k ks ih =>
    intro acc x
    rw [List.foldl_cons, ih, mem_addKey, List.mem_cons, or_assoc]

theorem firstSeen_nodup (ks : List Str) : (firstSeen ks).Nodup :=
  foldl_addKey_nodup ks [] List.nodup_nil

theorem mem_firstSeen (ks : List Str) (x : Str) : x ∈ firstSeen ks ↔ x ∈ ks := by
  simp [firstSeen, mem_foldl_addKey]

theorem buildQueryData_eq_foldl (st : QueryState) :
    buildQueryData st =
      st.paramsOrder.foldl (fun queryData key => objSet queryData key (queryValueOf st key)) [] := by
  unfold buildQueryData
  congr 1
  funext queryData key
  simp only [queryValueOf]
  split <;> rfl

theorem buildQueryData_eq_map (st : QueryState) (h : st.paramsOrder.Nodup) :
    buildQueryData st = st.paramsOrder.map (fun k => (k, queryValueOf st k)) := by
  rw [buildQueryData_eq_foldl, foldl_objSet _ _ [] h (fun _ _ => by simp [mapFind])]
  simp

theorem finalState_paramsOrder (q : Str) :
    (finalState q).paramsOrder = firstSeen ((survivors q).map tokenKey) := by
  unfold finalState
  rw [foldl_paramsOrder _ _ OrderInv_init]
  rfl

theorem finalState_values (q k : Str) :
    (mapFind (finalState q).paramsMap k).getD [] = valuesFor q k := by
  unfold finalState
  rw [foldl_paramsMap]
  simp [QueryState.init, mapFind, valuesFor]

theorem finalState_empty (q : Str) : (finalState q).empty = (survivors q).isEmpty := by
  unfold finalState
  rw [foldl_empty]
  simp [QueryState.init]

theorem finalState_queryData (q : Str) :
    buildQueryData (finalState q) =
      (firstSeen ((survivors q).map tokenKey)).map (fun k => (k, queryValueOf (finalState q) k)) := by
  rw [buildQueryData_eq_map, finalState_paramsOrder]
  rw [finalState_paramsOrder]
  exact firstSeen_nodup _

theorem mem_queryData (q k : Str) (v : QueryValue) :
    (k, v) ∈ buildQueryData (finalState q) ↔
      k ∈ (survivors q).map tokenKey ∧ v = queryValueOf (finalState q) k := by
  rw [finalState_queryData, List.mem_map]
  constructor
  · rintro ⟨k2, hk2, he⟩
    simp only [Prod.mk.injEq] at he
    obtain ⟨rfl, rfl⟩ := he
    exact ⟨(mem_firstSeen _ _).1 hk2, rfl⟩
  · rintro ⟨hk, rfl⟩
    exact ⟨k, (mem_firstSeen _ _).2 hk, rfl⟩

theorem valuesFor_ne_nil (q k : Str) (h : k ∈ (survivors q).map tokenKey) : valuesFor q k ≠ [] := by
  obtain ⟨t, ht, hk⟩ := List.mem_map.1 h
  unfold valuesFor
  intro hnil
  have : t ∈ (survivors q).filter (fun t => tokenKey t = k) := by
    simp [List.mem_filter, ht, hk]
  rw [List.map_eq_nil_iff] at hnil
  rw [hnil] at this
  simp at this

/-- The value of a key of `queryData`, from the values filed for it and the suffix object. -/
theorem queryValueOf_finalState (q k : Str) :
    queryValueOf (finalState q) k =
      if (valuesFor q k).length > 1 ∨ objHas (finalState q).qsSuffix k = true then
        QueryValue.array (valuesFor q k)
      else QueryValue.string ((valuesFor q k).headD []) := by
  simp only [queryValueOf, finalState_values]

/-! ### The value of a token -/

theorem tokenValue_eq (t : Str) :
    tokenValue t = ((keyRest t).dropWhile (fun c => c == '=')).takeWhile (fun c => c != '=') := by
  unfold tokenValue
  rw [strtok_r_sum]
  split
  · rename_i h; simp [h]
  · rename_i c cs h; simp [h]

theorem dropWhile_eq_self_of_not_mem (s : Str) (h : '=' ∉ s) :
    s.dropWhile (fun c => c == '=') = s := by
  cases s with
  | nil => rfl
  | cons c cs =>
    have : c ≠ '=' := fun e => h (e ▸ List.mem_cons_self _ _)
    simp [List.dropWhile_cons, this]

theorem takeWhile_eq_self_of_not_mem (s : Str) (h : '=' ∉ s) :
    s.takeWhile (fun c => c != '=') = s := by
  rw [List.takeWhile_eq_self_iff]
  intro c hc
  have : c ≠ '=' := fun e => h (e ▸ hc)
  simp [this]

/-! ## C1: the key and the value of a token -/

/-- C1 (as amended): for every token that is not empty and does not start with the equals sign,
the decoder ends the iteration with the value appended to the values of the key, where the key
is the part of the token before its first equals sign (less a trailing array marker) and the
value is the part behind that equals sign with further leading equals signs skipped, up to the
next equals sign or the end of the token; the value is everything behind the first equals sign
whenever that text holds no further equals sign, and it is empty when the token holds no equals
sign. -/
theorem C1_key_value_split (st : QueryState) (t : Str) (ht : t ≠ [])
    (hs : t.head? ≠ some '=') :
    ∃ st1, queryStep st t = some st1 ∧
      mapFind st1.paramsMap (stripBrackets (t.takeWhile (fun c => c != '='))).1 =
        some ((mapFind st.paramsMap (stripBrackets (t.takeWhile (fun c => c != '='))).1).getD []
          ++ [((specValue t).dropWhile (fun c => c == '=')).takeWhile (fun c => c != '=')]) ∧
      ('=' ∉ specValue t →
        ((specValue t).dropWhile (fun c => c == '=')).takeWhile (fun c => c != '=') = specValue t) ∧
      ('=' ∉ t → specValue t = []) ∧
      decodeQuery "k".toList =
        some { queryData := [("k".toList, QueryValue.string [])], qsSuffix := [],
               empty := false, arrayBrackets := false } := by
  have hsv : survives t = true := by
    simp only [survives, bne_iff_ne]; exact hs
  refine ⟨recordToken st t, queryStep_of_survives st t ht hsv, ?_, ?_, ?_, by decide⟩
  · rw [recordToken_paramsMap, mapFind_mapPushBack, tokenValue_eq]
    simp [tokenKey, rawKey, keyRest, specValue]
  · intro h
    rw [dropWhile_eq_self_of_not_mem _ h, takeWhile_eq_self_of_not_mem _ h]
  · intro h
    have e : t.dropWhile (fun c => c != '=') = [] := by
      rw [List.dropWhile_eq_nil_iff]
      intro c hc
      have : c ≠ '=' := fun e => h (e ▸ hc)
      simp [this]
    simp [specValue, e]

/-- C1 at the token `a=b=c` in the initial state. -/
theorem C1_key_value_split_witness :
    ∃ st1, queryStep QueryState.init "a=b=c".toList = some st1 ∧
      mapFind st1.paramsMap (stripBrackets ("a=b=c".toList.takeWhile (fun c => c != '='))).1 =
        some ((mapFind QueryState.init.paramsMap
            (stripBrackets ("a=b=c".toList.takeWhile (fun c => c != '='))).1).getD []
          ++ [((specValue "a=b=c".toList).dropWhile (fun c => c == '=')).takeWhile
                (fun c => c != '=')]) ∧
      ('=' ∉ specValue "a=b=c".toList →
        ((specValue "a=b=c".toList).dropWhile (fun c => c == '=')).takeWhile
          (fun c => c != '=') = specValue "a=b=c".toList) ∧
      ('=' ∉ "a=b=c".toList → specValue "a=b=c".toList = []) ∧
      decodeQuery "k".toList =
        some { queryData := [("k".toList, QueryValue.string [])], qsSuffix := [],
               empty := false, arrayBrackets := false } :=
  C1_key_value_split QueryState.init "a=b=c".toList (by decide) (by decide)

/-- C1 (counterexample): on the tokens `a=b=c` and `a==b` the decoder files the value `b`, not
the text behind the first equals sign (`b=c` and `=b`). -/
theorem C1_counterexample :
    (decodeQuery "a=b=c".toList).map (fun d => d.queryData) =
        some [("a".toList, QueryValue.string "b".toList)] ∧
    specValue "a=b=c".toList = "b=c".toList ∧
    (decodeQuery "a==b".toList).map (fun d => d.queryData) =
        some [("a".toList, QueryValue.string "b".toList)] ∧
    specValue "a==b".toList = "=b".toList := by
  decide

/-! ## C2: the values of a key -/

/-- The comparison of lines 137 and 144 succeeds exactly when the key ends in the marker. -/
theorem strncmpEq_drop (key m : Str) (h : m.length ≤ key.length) :
    strncmpEq (key.drop (key.length - m.length)) m m.length = true ↔
      key.drop (key.length - m.length) = m := by
  have hl : (key.drop (key.length - m.length)).length = m.length := by
    simp only [List.length_drop]; omega
  unfold strncmpEq
  rw [List.take_of_length_le (le_of_eq hl), List.take_of_length_le (le_refl _), beq_iff_eq]

theorem drop_append_marker (k m : Str) : (k ++ m).drop ((k ++ m).length - m.length) = m := by
  have : (k ++ m).length - m.length = k.length := by simp
  rw [this, List.drop_left]

theorem take_append_marker (k m : Str) : (k ++ m).take ((k ++ m).length - m.length) = k := by
  have : (k ++ m).length - m.length = k.length := by simp
  rw [this, List.take_left]

theorem stripBrackets_encoded (k : Str) (hk : k ≠ []) :
    stripBrackets (k ++ ENCODED_BRACKETS) = (k, some ENCODED_BRACKETS) := by
  have hlen : (k ++ ENCODED_BRACKETS).length > ENCODED_BRACKETS.length := by
    have := List.length_pos.2 hk
    simp only [List.length_append]; omega
  have hcmp := (strncmpEq_drop (k ++ ENCODED_BRACKETS) ENCODED_BRACKETS (le_of_lt hlen)).2
    (drop_append_marker k ENCODED_BRACKETS)
  unfold stripBrackets
  simp only []
  rw [if_pos ⟨hlen, hcmp⟩, take_append_marker]

theorem stripBrackets_literal (k : Str) (hk : k ≠ []) :
    stripBrackets (k ++ BRACKETS) = (k, some BRACKETS) := by
  have hlen : (k ++ BRACKETS).length > BRACKETS.length := by
    have := List.length_pos.2 hk
    simp only [List.length_append]; omega
  have hcmp := (strncmpEq_drop (k ++ BRACKETS) BRACKETS (le_of_lt hlen)).2
    (drop_append_marker k BRACKETS)
  have hno : ¬ ((k ++ BRACKETS).length > ENCODED_BRACKETS.length ∧
      strncmpEq ((k ++ BRACKETS).drop ((k ++ BRACKETS).length - ENCODED_BRACKETS.length))
        ENCODED_BRACKETS ENCODED_BRACKETS.length = true) := by
    rintro ⟨h1, h2⟩
    rw [strncmpEq_drop _ _ (le_of_lt h1)] at h2
    have h3 := List.take_append_drop ((k ++ BRACKETS).length - ENCODED_BRACKETS.length)
      (k ++ BRACKETS)
    rw [h2] at h3
    have h4 := congrArg List.reverse h3
    simp [BRACKETS, ENCODED_BRACKETS] at h4
  unfold stripBrackets
  simp only []
  rw [if_neg hno, if_pos ⟨hlen, hcmp⟩, take_append_marker]

/-- C4 (as amended): for every token whose raw key is a text that is not empty followed by the
encoded marker or by the literal marker, the decoder ends the iteration with the marker cut from
the key: the suffix object maps the text before the marker to the marker, the flag
`arrayBrackets` is set and the value of the token is appended to the values of the text before
the marker. A raw key that is no longer than the marker it ends in is left as it is and gets no
entry: the keys `%5B%5D` and `[]` are kept whole. `a%5B%5D=1&a%5B%5D=2` gives the array of the
two values under `a` and the suffix entry of `a`. -/
theorem C4_marker_cut_from_longer_key (st : QueryState) (t k m : Str) (hk : k ≠ [])
    (hm : m = ENCODED_BRACKETS ∨ m = BRACKETS)
    (hraw : t.takeWhile (fun c => c != '=') = k ++ m) :
    (∃ st1, queryStep st t = some st1 ∧
      mapFind st1.qsSuffix k = some m ∧
      st1.arrayBrackets = true ∧
      mapFind st1.paramsMap k = some ((mapFind st.paramsMap k).getD [] ++ [tokenValue t])) ∧
    stripBrackets ENCODED_BRACKETS = (ENCODED_BRACKETS, none) ∧
    stripBrackets BRACKETS = (BRACKETS, none) ∧
    decodeQuery "a%5B%5D=1&a%5B%5D=2".toList =
      some { queryData := [("a".toList, QueryValue.array ["1".toList, "2".toList])],
             qsSuffix := [("a".toList, "%5B%5D".toList)], empty := false,
             arrayBrackets := true } := by
  refine ⟨?_, by decide, by decide, by decide⟩
  have hstrip : stripBrackets (rawKey t) = (k, some m) := by
    unfold rawKey
    rw [hraw]
    rcases hm with rfl | rfl
    · exact stripBrackets_encoded k hk
    · exact stripBrackets_literal k hk
  have ht : t ≠ [] := by
    rintro rfl
    simp at hraw
    exact hk hraw.1
  have hsv : survives t = true := by
    cases t with
    | nil => exact absurd rfl ht
    | cons c cs =>
      rw [survives_cons]
      by_cases hc : c = '='
      · subst hc
        simp at hraw
        exact absurd hraw.1 hk
      · simp [hc]
  have hkey : tokenKey t = k := by simp [tokenKey, hstrip]
  have hmark : tokenMarker t = some m := by simp [tokenMarker, hstrip]
  refine ⟨recordToken st t, queryStep_of_survives st t ht hsv, ?_, ?_, ?_⟩
  · rw [recordToken_qsSuffix, hmark, hkey]
    simp [mapFind_objSet]
  · rw [recordToken_arrayBrackets, hmark]; simp
  · rw [recordToken_paramsMap, mapFind_mapPushBack, hkey]; simp

/-- C4 at the token `a[]=1` in the initial state. -/
theorem C4_marker_cut_from_longer_key_witness :
    (∃ st1, queryStep QueryState.init "a[]=1".toList = some st1 ∧
      mapFind st1.qsSuffix "a".toList = some "[]".toList ∧
      st1.arrayBrackets = true ∧
      mapFind st1.paramsMap "a".toList =
        some ((mapFind QueryState.init.paramsMap "a".toList).getD [] ++
          [tokenValue "a[]=1".toList])) ∧
    stripBrackets ENCODED_BRACKETS = (ENCODED_BRACKETS, none) ∧
    stripBrackets BRACKETS = (BRACKETS, none) ∧
    decodeQuery "a%5B%5D=1&a%5B%5D=2".toList =
      some { queryData := [("a".toList, QueryValue.array ["1".toList, "2".toList])],
             qsSuffix := [("a".toList, "%5B%5D".toList)], empty := false,
             arrayBrackets := true } :=
  C4_marker_cut_from_longer_key QueryState.init "a[]=1".toList "a".toList "[]".toList
    (by decide) (Or.inr rfl) (by decide)

/-- C4 (counterexample): the raw keys `[]` and `%5B%5D` end in a marker, yet the decoder cuts
nothing from them and records no suffix entry. -/
theorem C4_counterexample :
    decodeQuery "[]=1".toList =
      some { queryData := [("[]".toList, QueryValue.string "1".toList)], qsSuffix := [],
             empty := false, arrayBrackets := false } ∧
    decodeQuery "%5B%5D=1".toList =
      some { queryData := [("%5B%5D".toList, QueryValue.string "1".toList)], qsSuffix := [],
             empty := false, arrayBrackets := false } := by
  decide

/-! ## The assembler -/

theorem setProtocol_eq (uri : HttpUrl) (opts : Int) (data : ParsedUrl) :
    setProtocol uri opts data =
      Except.ok (if uri.protocol ≠ [] ∧ hasFlag opts kProtocol = true then
        { data with protocol := some uri.protocol } else data) := by
  unfold setProtocol
  by_cases h : uri.protocol ≠ [] ∧ hasFlag opts kProtocol = true
  · rw [if_pos h, if_pos h, if_neg h.1]
  · rw [if_neg h, if_neg h]

theorem setQuery_eq (uri : HttpUrl) (opts : Int) (data : ParsedUrl) :
    setQuery uri opts data =
      some (if uri.query ≠ [] ∧ hasFlag opts kQuery = true ∧
              (finalState uri.query).empty = false then
          if (finalState uri.query).arrayBrackets = true then
            { data with query := some (buildQueryData (finalState uri.query)),
                        queryArraySuffix := some (finalState uri.query).qsSuffix }
          else { data with query := some (buildQueryData (finalState uri.query)) }
        else data) := by
  unfold setQuery
  by_cases h : uri.query ≠ [] ∧ hasFlag opts kQuery = true
  · rw [if_pos h, decodeQuery_eq]
    by_cases he : (finalState uri.query).empty = false
    · simp only [h, he, and_self, ne_eq, not_false_eq_true, if_true]
      split <;> rfl
    · simp [h, he]
  · rw [if_neg h]
    have : ¬ (uri.query ≠ [] ∧ hasFlag opts kQuery = true ∧
        (finalState uri.query).empty = false) := fun hh => h ⟨hh.1, hh.2.1⟩
    rw [if_neg this]

/-- The assembler returns, and its result is `assembled`. -/
theorem assemble_eq (uri : HttpUrl) (opts : Int) :
    assemble uri opts = some (Except.ok (assembled uri opts)) := by
  unfold assemble
  rw [setProtocol_eq]
  simp only [setQuery_eq]
  simp only [setPath, setFragment, setPort, setHost, setAuth, assembled]
  by_cases h1 : uri.protocol ≠ [] ∧ hasFlag opts kProtocol = true <;>
  by_cases h2 : hasFlag opts kAuth = true <;>
  by_cases h3 : uri.user ≠ [] ∧ uri.password ≠ [] <;>
  by_cases h4 : uri.host ≠ [] ∧ hasFlag opts kHost = true <;>
  by_cases h5 : uri.port ≠ [] ∧ hasFlag opts kPort = true <;>
  by_cases h6 : uri.query ≠ [] ∧ hasFlag opts kQuery = true ∧
      (finalState uri.query).empty = false <;>
  by_cases h7 : (finalState uri.query).arrayBrackets = true <;>
  by_cases h8 : uri.fragment ≠ [] ∧ hasFlag opts kFragment = true <;>
  by_cases h9 : uri.path ≠ [] ∧ hasFlag opts kPath = true <;>
  simp [h1, h2, h3, h4, h5, h6, h7, h8, h9]

theorem parse_eq (ParseHttpUrl : Str → HttpUrl) (args : List JsValue) (s : Str)
    (h0 : args.head? = some (JsValue.string s)) (h1 : c_str s ≠ []) :
    parse ParseHttpUrl args =
      some (Except.ok (assembled (ParseHttpUrl (c_str s)) (parseOpts args))) := by
  unfold parse
  rw [h0]
  have : (c_str s).length ≠ 0 := fun h => h1 (List.length_eq_zero.1 h)
  simp only [this, if_false]
  exact assemble_eq _ _

/-- C7: for every URL that is not empty and every mask, `parse` returns a result with the
property `path`; it is the path of the grammar when the flag `kPath` is set and that path is not
empty, and the text `/` otherwise. -/
theorem C7_path_always_set (ParseHttpUrl : Str → HttpUrl) (args : List JsValue)
    (s : Str) (h0 : args.head? = some (JsValue.string s)) (h1 : c_str s ≠ []) :
    ∃ r, parse ParseHttpUrl args = some (Except.ok r) ∧
      r.path = some (if (ParseHttpUrl (c_str s)).path ≠ [] ∧
                        hasFlag (parseOpts args) kPath = true then
                      (ParseHttpUrl (c_str s)).path
                    else "/".toList) :=
  ⟨_, parse_eq ParseHttpUrl args s h0 h1, rfl⟩

/-- C7 at a URL whose path is empty, under the default mask. -/
theorem C7_path_always_set_witness :
    ∃ r, parse (fun _ => bareUri) [JsValue.string "http://u@h?=x&b[]=y".toList] =
        some (Except.ok r) ∧
      r.path = some (if (bareUri).path ≠ [] ∧
                        hasFlag (parseOpts [JsValue.string "http://u@h?=x&b[]=y".toList])
                          kPath = true then
                      (bareUri).path
                    else "/".toList) :=
  C7_path_always_set (fun _ => bareUri) [JsValue.string "http://u@h?=x&b[]=y".toList]
    "http://u@h?=x&b[]=y".toList rfl (by decide)

/-! ## C8: the credentials -/

/-- C8: for every output of the grammar and every mask, the result of `parse` has the property
`auth` exactly when the flag `kAuth` is set and both the user and the password are not empty,
and then `auth` holds that user and that password; with one of the two alone there is no
`auth`. -/
theorem C8_auth_all_or_nothing (ParseHttpUrl : Str → HttpUrl) (args : List JsValue)
    (s : Str) (h0 : args.head? = some (JsValue.string s)) (h1 : c_str s ≠ []) :
    ∃ r, parse ParseHttpUrl args = some (Except.ok r) ∧
      (r.auth.isSome = true ↔
        (hasFlag (parseOpts args) kAuth = true ∧ (ParseHttpUrl (c_str s)).user ≠ [] ∧
          (ParseHttpUrl (c_str s)).password ≠ [])) ∧
      (∀ a, r.auth = some a →
        a.user = (ParseHttpUrl (c_str s)).user ∧
          a.password = (ParseHttpUrl (c_str s)).password) := by
  refine ⟨_, parse_eq ParseHttpUrl args s h0 h1, ?_, ?_⟩
  · simp only [assembled]
    split <;> simp_all
  · intro a ha
    simp only [assembled] at ha
    split at ha
    · cases ha; exact ⟨rfl, rfl⟩
    · cases ha

/-- C8 at a URL with a user and no password, under the default mask. -/
theorem C8_auth_all_or_nothing_witness :
    ∃ r, parse (fun _ => bareUri) [JsValue.string "http://u@h?=x&b[]=y".toList] =
        some (Except.ok r) ∧
      (r.auth.isSome = true ↔
        (hasFlag (parseOpts [JsValue.string "http://u@h?=x&b[]=y".toList]) kAuth = true ∧
          (bareUri).user ≠ [] ∧ (bareUri).password ≠ [])) ∧
      (∀ a, r.auth = some a →
        a.user = (bareUri).user ∧ a.password = (bareUri).password) :=
  C8_auth_all_or_nothing (fun _ => bareUri) [JsValue.string "http://u@h?=x&b[]=y".toList]
    "http://u@h?=x&b[]=y".toList rfl (by decide)

/-! ## C9: protocol, host, port and fragment -/

/-- C9: for every output of the grammar and every mask for which `parse` returns a result, each
of the properties `protocol`, `host`, `port` and `fragment` is set exactly when its flag is set
and its text in the output of the grammar is not empty, and then it is that text; none of them
is ever set to the empty text. -/
theorem C9_plain_fields (ParseHttpUrl : Str → HttpUrl) (args : List JsValue)
    (s : Str) (h0 : args.head? = some (JsValue.string s)) (h1 : c_str s ≠ []) :
    ∃ r, parse ParseHttpUrl args = some (Except.ok r) ∧
      r.protocol = (if (ParseHttpUrl (c_str s)).protocol ≠ [] ∧
          hasFlag (parseOpts args) kProtocol = true then
        some (ParseHttpUrl (c_str s)).protocol else none) ∧
      r.host = (if (ParseHttpUrl (c_str s)).host ≠ [] ∧
          hasFlag (parseOpts args) kHost = true then
        some (ParseHttpUrl (c_str s)).host else none) ∧
      r.port = (if (ParseHttpUrl (c_str s)).port ≠ [] ∧
          hasFlag (parseOpts args) kPort = true then
        some (ParseHttpUrl (c_str s)).port else none) ∧
      r.fragment = (if (ParseHttpUrl (c_str s)).fragment ≠ [] ∧
          hasFlag (parseOpts args) kFragment = true then
        some (ParseHttpUrl (c_str s)).fragment else none) ∧
      r.protocol ≠ some [] ∧ r.host ≠ some [] ∧ r.port ≠ some [] ∧ r.fragment ≠ some [] := by
  refine ⟨_, parse_eq ParseHttpUrl args s h0 h1, rfl, rfl, rfl, rfl, ?_, ?_, ?_, ?_⟩ <;>
  · simp only [assembled]
    split
    · rename_i h
      intro e
      exact h.1 (Option.some.inj e)
    · intro e; cases e

/-- C9 at the sample URL under the mask `kProtocol | kHost`. -/
theorem C9_plain_fields_witness :
    ∃ r, parse (fun _ => sampleUri)
        [JsValue.string "http://u:p@h.example:8080/p?x=1#f".toList, JsValue.number 5] =
        some (Except.ok r) ∧
      r.protocol = (if (sampleUri).protocol ≠ [] ∧
          hasFlag (parseOpts [JsValue.string "http://u:p@h.example:8080/p?x=1#f".toList,
            JsValue.number 5]) kProtocol = true then
        some (sampleUri).protocol else none) ∧
      r.host = (if (sampleUri).host ≠ [] ∧
          hasFlag (parseOpts [JsValue.string "http://u:p@h.example:8080/p?x=1#f".toList,
            JsValue.number 5]) kHost = true then
        some (sampleUri).host else none) ∧
      r.port = (if (sampleUri).port ≠ [] ∧
          hasFlag (parseOpts [JsValue.string "http://u:p@h.example:8080/p?x=1#f".toList,
            JsValue.number 5]) kPort = true then
        some (sampleUri).port else none) ∧
      r.fragment = (if (sampleUri).fragment ≠ [] ∧
          hasFlag (parseOpts [JsValue.string "http://u:p@h.example:8080/p?x=1#f".toList,
            JsValue.number 5]) kFragment = true then
        some (sampleUri).fragment else none) ∧
      r.protocol ≠ some [] ∧ r.host ≠ some [] ∧ r.port ≠ some [] ∧ r.fragment ≠ some [] :=
  C9_plain_fields (fun _ => sampleUri)
    [JsValue.string "http://u:p@h.example:8080/p?x=1#f".toList, JsValue.number 5]
    "http://u:p@h.example:8080/p?x=1#f".toList rfl (by decide)

/-! ## C10: a mask without the query flag -/

/-- C10: for every URL that is not empty and every mask without the flag `kQuery`, the result of
`parse` has neither the property `query` nor the property `queryArraySuffix`, and it is the
result `parse` returns when the grammar hands out the same components with an empty query. -/
theorem C10_query_flag_unset (ParseHttpUrl : Str → HttpUrl) (args : List JsValue)
    (s : Str) (h0 : args.head? = some (JsValue.string s)) (h1 : c_str s ≠ [])
    (hq : hasFlag (parseOpts args) kQuery = false) :
    ∃ r, parse ParseHttpUrl args = some (Except.ok r) ∧
      r.query = none ∧ r.queryArraySuffix = none ∧
      parse (fun u => { ParseHttpUrl u with query := [] }) args = some (Except.ok r) := by
  refine ⟨_, parse_eq ParseHttpUrl args s h0 h1, ?_, ?_, ?_⟩
  · simp [assembled, hq]
  · simp [assembled, hq]
  · rw [parse_eq _ args s h0 h1]
    simp [assembled, hq]

/-- C10 at the sample URL under the mask `kAll` less `kQuery`. -/
theorem C10_query_flag_unset_witness :
    ∃ r, parse (fun _ => sampleUri)
        [JsValue.string "http://u:p@h.example:8080/p?x=1#f".toList, JsValue.number 111] =
        some (Except.ok r) ∧
      r.query = none ∧ r.queryArraySuffix = none ∧
      parse (fun u => { (fun _ => sampleUri) u with query := [] })
        [JsValue.string "http://u:p@h.example:8080/p?x=1#f".toList, JsValue.number 111] =
        some (Except.ok r) :=
  C10_query_flag_unset (fun _ => sampleUri)
    [JsValue.string "http://u:p@h.example:8080/p?x=1#f".toList, JsValue.number 111]
    "http://u:p@h.example:8080/p?x=1#f".toList rfl (by decide) (by decide)

/-! ## C11, C12, C20: the failures of `parse` -/

theorem parse_of_not_string (ParseHttpUrl : Str → HttpUrl) (args : List JsValue)
    (h : ∀ s, args.head? ≠ some (JsValue.string s)) :
    parse ParseHttpUrl args =
      some (Except.error (JsException.TypeError "First argument has to be string")) := by
  unfold parse
  split
  · rename_i s hs
    exact absurd hs (h s)
  · rfl

theorem parse_of_empty (ParseHttpUrl : Str → HttpUrl) (args : List JsValue) (s : Str)
    (h0 : args.head? = some (JsValue.string s)) (h1 : c_str s = []) :
    parse ParseHttpUrl args =
      some (Except.error (JsException.TypeError "String mustn't be empty")) := by
  unfold parse
  rw [h0]
  simp [h1]

/-- C11: `parse` throws the error of the argument check exactly when the first argument is
missing or is not a string; with a string as first argument it throws the error of the empty
URL exactly when `url`, the string built from that argument, has length zero; whenever one of
the two is thrown no result is returned. The empty string gives the second error, the number 42
and the empty argument list give the first. -/
theorem C11_argument_errors (ParseHttpUrl : Str → HttpUrl) (args : List JsValue) :
    (parse ParseHttpUrl args =
        some (Except.error (JsException.TypeError "First argument has to be string")) ↔
      ∀ s, args.head? ≠ some (JsValue.string s)) ∧
    (∀ s, args.head? = some (JsValue.string s) →
      (parse ParseHttpUrl args =
          some (Except.error (JsException.TypeError "String mustn't be empty")) ↔
        (c_str s).length = 0)) ∧
    (∀ e, parse ParseHttpUrl args = some (Except.error e) →
      ∀ r, parse ParseHttpUrl args ≠ some (Except.ok r)) ∧
    parse ParseHttpUrl [JsValue.string [], JsValue.number 127] =
      some (Except.error (JsException.TypeError "String mustn't be empty")) ∧
    parse ParseHttpUrl [JsValue.number 42, JsValue.number 127] =
      some (Except.error (JsException.TypeError "First argument has to be string")) ∧
    parse ParseHttpUrl [] =
      some (Except.error (JsException.TypeError "First argument has to be string")) := by
  refine ⟨⟨?_, parse_of_not_string ParseHttpUrl args⟩, ?_, ?_, rfl, rfl, rfl⟩
  · intro h s hs
    by_cases h1 : c_str s = []
    · rw [parse_of_empty ParseHttpUrl args s hs h1] at h
      simp at h
    · rw [parse_eq ParseHttpUrl args s hs h1] at h
      simp at h
  · intro s hs
    constructor
    · intro h
      by_cases h1 : c_str s = []
      · simp [h1]
      · rw [parse_eq ParseHttpUrl args s hs h1] at h
        simp at h
    · intro h
      exact parse_of_empty ParseHttpUrl args s hs (List.length_eq_zero.1 h)
  · intro e he r hr
    rw [he] at hr
    simp at hr

/-- C12 (as amended): when the grammar returns an empty protocol, `parse` returns a result
without the property `protocol`, whatever the mask; the check `THROW_IF_EMPTY` of the protocol
block stands behind the test that the protocol is not empty, so that it never throws. -/
theorem C12_empty_protocol_omitted (ParseHttpUrl : Str → HttpUrl) (args : List JsValue)
    (s : Str) (h0 : args.head? = some (JsValue.string s)) (h1 : c_str s ≠ [])
    (hp : (ParseHttpUrl (c_str s)).protocol = []) :
    (∃ r, parse ParseHttpUrl args = some (Except.ok r) ∧ r.protocol = none) ∧
    (∀ uri opts data msg, setProtocol uri opts data ≠
      Except.error (JsException.SyntaxError msg)) := by
  refine ⟨⟨_, parse_eq ParseHttpUrl args s h0 h1, ?_⟩, ?_⟩
  · simp [assembled, hp]
  · intro uri opts data msg
    rw [setProtocol_eq]
    simp

/-- C12 at a grammar output without protocol, under the default mask. -/
theorem C12_empty_protocol_omitted_witness :
    (∃ r, parse (fun _ => { sampleUri with protocol := [] }) [JsValue.string "//h/p".toList] =
        some (Except.ok r) ∧ r.protocol = none) ∧
    (∀ uri opts data msg, setProtocol uri opts data ≠
      Except.error (JsException.SyntaxError msg)) :=
  C12_empty_protocol_omitted (fun _ => { sampleUri with protocol := [] })
    [JsValue.string "//h/p".toList] "//h/p".toList rfl (by decide) rfl

/-- C12 (counterexample): under the mask `kAll`, whose flag `kProtocol` is set, and with an
empty protocol from the grammar, `parse` returns a result instead of throwing. -/
theorem C12_counterexample :
    hasFlag (parseOpts [JsValue.string "//h/p".toList, JsValue.number 127]) kProtocol = true ∧
    ({ sampleUri with protocol := [] } : HttpUrl).protocol = [] ∧
    parse (fun _ => { sampleUri with protocol := [] })
        [JsValue.string "//h/p".toList, JsValue.number 127] =
      some (Except.ok
        { auth := some { user := "u".toList, password := "p".toList },
          host := some "h.example".toList, port := some "8080".toList,
          query := some [("x".toList, QueryValue.string "1".toList)],
          fragment := some "f".toList, path := some "/p".toList }) := by
  refine ⟨by decide, rfl, ?_⟩
  rfl

/-- C20: with a string as first argument whose `url` is not empty, `parse` returns a result for
every grammar and every mask; the protocol block never throws; the run of the decoder always
ends; and the only errors `parse` throws are the two of the argument checks. -/
theorem C20_parse_total (ParseHttpUrl : Str → HttpUrl) (args : List JsValue) :
    (∀ s, args.head? = some (JsValue.string s) → c_str s ≠ [] →
      ∃ r, parse ParseHttpUrl args = some (Except.ok r)) ∧
    (∀ uri opts data, ∃ data1, setProtocol uri opts data = Except.ok data1) ∧
    parse ParseHttpUrl args ≠ none ∧
    (∀ e, parse ParseHttpUrl args = some (Except.error e) →
      e = JsException.TypeError "First argument has to be string" ∨
      e = JsException.TypeError "String mustn't be empty") := by
  have key : (∃ r, parse ParseHttpUrl args = some (Except.ok r)) ∨
      parse ParseHttpUrl args =
        some (Except.error (JsException.TypeError "First argument has to be string")) ∨
      parse ParseHttpUrl args =
        some (Except.error (JsException.TypeError "String mustn't be empty")) := by
    by_cases h : ∃ s, args.head? = some (JsValue.string s)
    · obtain ⟨s, hs⟩ := h
      by_cases h1 : c_str s = []
      · exact Or.inr (Or.inr (parse_of_empty ParseHttpUrl args s hs h1))
      · exact Or.inl ⟨_, parse_eq ParseHttpUrl args s hs h1⟩
    · exact Or.inr (Or.inl (parse_of_not_string ParseHttpUrl args
        (fun s hs => h ⟨s, hs⟩)))
  refine ⟨fun s hs h1 => ⟨_, parse_eq ParseHttpUrl args s hs h1⟩,
    fun uri opts data => ⟨_, setProtocol_eq uri opts data⟩, ?_, ?_⟩
  · rcases key with ⟨r, h⟩ | h | h <;> rw [h] <;> simp
  · intro e he
    rcases key with ⟨r, h⟩ | h | h <;> rw [h] at he <;> simp at he
    · exact Or.inl he.symm
    · exact Or.inr he.symm

/-! ## Separators and tokens -/

theorem splitOn_append_amp (q1 q2 : Str) :
    (q1 ++ '&' :: q2).splitOn '&' = q1.splitOn '&' ++ q2.splitOn '&' := by
  induction q1 with
  | nil => simp [List.splitOn, List.splitOnP_cons]
  | cons c cs ih =>
    simp only [List.splitOn] at ih ⊢
    rw [List.cons_append, List.splitOnP_cons, List.splitOnP_cons, ih]
    by_cases h : c = '&'
    · simp [h]
    · simp only [beq_iff_eq, h, if_false]
      cases hs : List.splitOnP (fun x => x == '&') cs with
      | nil => exact absurd hs (List.splitOnP_ne_nil _ _)
      | cons f fs => simp [List.modifyHead]

/-- The tokens of two texts joined by a separator are the tokens of the one, then those of the
other. -/
theorem tokens_append_amp (q1 q2 : Str) : tokens (q1 ++ '&' :: q2) = tokens q1 ++ tokens q2 := by
  simp [tokens, splitOn_append_amp]

theorem survivors_append_amp (q1 q2 : Str) :
    survivors (q1 ++ '&' :: q2) = survivors q1 ++ survivors q2 := by
  simp [survivors, tokens_append_amp]

theorem tokens_of_no_amp (t : Str) (ht : t ≠ []) (h : '&' ∉ t) : tokens t = [t] := by
  have : t.splitOn '&' = [t] := by
    apply List.splitOnP_eq_single
    intro x hx hx2
    have : x = '&' := by simpa using hx2
    exact h (this ▸ hx)
  simp [tokens, this, ht]

theorem survivors_of_not_survives (t : Str) (h : '&' ∉ t) (hs : survives t = false) :
    survivors t = [] := by
  cases t with
  | nil => rfl
  | cons c cs => simp [survivors, tokens_of_no_amp (c :: cs) (by simp) h, hs]

/-- The outcome of the decoder is a function of the surviving tokens. -/
theorem decodeQuery_congr (q1 q2 : Str) (h : survivors q1 = survivors q2) :
    decodeQuery q1 = decodeQuery q2 := by
  rw [decodeQuery_eq, decodeQuery_eq]
  simp only [finalState, h]

theorem survives_eq_false (t : Str) (h : t.head? = some '=') : survives t = false := by
  simp [survives, h]

/-! ## C14: tokens with an empty key -/

/-- C14: a token that starts with the equals sign leaves no trace: for every query string,
putting such a token between two separators, in front of the first token or behind the last one
leaves the outcome of the decoder as it is (`queryData`, `qsSuffix` and both flags); alone it
leaves the flag `empty` set; `=x&b=y` and `b=y` both give the string `y` under `b`. -/
theorem C14_empty_key_token_ignored (q1 q2 t : Str) (ht : t.head? = some '=')
    (hamp : '&' ∉ t) :
    decodeQuery (q1 ++ '&' :: (t ++ '&' :: q2)) = decodeQuery (q1 ++ '&' :: q2) ∧
    decodeQuery (t ++ '&' :: q2) = decodeQuery q2 ∧
    decodeQuery (q1 ++ '&' :: t) = decodeQuery q1 ∧
    decodeQuery t =
      some { queryData := [], qsSuffix := [], empty := true, arrayBrackets := false } ∧
    decodeQuery "=x&b=y".toList = decodeQuery "b=y".toList ∧
    decodeQuery "b=y".toList =
      some { queryData := [("b".toList, QueryValue.string "y".toList)], qsSuffix := [],
             empty := false, arrayBrackets := false } := by
  have hs := survivors_of_not_survives t hamp (survives_eq_false t ht)
  refine ⟨?_, ?_, ?_, ?_, by decide, by decide⟩
  · apply decodeQuery_congr
    simp [survivors_append_amp, hs]
  · apply decodeQuery_congr
    simp [survivors_append_amp, hs]
  · apply decodeQuery_congr
    simp [survivors_append_amp, hs]
  · rw [decodeQuery_eq]
    simp only [finalState, hs]
    rfl

/-- C14 at the token `=x` between `a=1` and `b=y`. -/
theorem C14_empty_key_token_ignored_witness :
    decodeQuery ("a=1".toList ++ '&' :: ("=x".toList ++ '&' :: "b=y".toList)) =
      decodeQuery ("a=1".toList ++ '&' :: "b=y".toList) ∧
    decodeQuery ("=x".toList ++ '&' :: "b=y".toList) = decodeQuery "b=y".toList ∧
    decodeQuery ("a=1".toList ++ '&' :: "=x".toList) = decodeQuery "a=1".toList ∧
    decodeQuery "=x".toList =
      some { queryData := [], qsSuffix := [], empty := true, arrayBrackets := false } ∧
    decodeQuery "=x&b=y".toList = decodeQuery "b=y".toList ∧
    decodeQuery "b=y".toList =
      some { queryData := [("b".toList, QueryValue.string "y".toList)], qsSuffix := [],
             empty := false, arrayBrackets := false } :=
  C14_empty_key_token_ignored "a=1".toList "b=y".toList "=x".toList (by decide) (by decide)

/-! ## C15: separators -/

theorem tokens_eq_of_survivors (q1 q2 : Str) (h : tokens q1 = tokens q2) :
    survivors q1 = survivors q2 := by
  simp only [survivors, h]

theorem splitOn_no_amp (q : Str) : ∀ f ∈ q.splitOn '&', '&' ∉ f := by
  induction q with
  | nil => intro f hf; simp at hf; simp [hf]
  | cons c cs ih =>
    simp only [List.splitOn] at ih ⊢
    rw [List.splitOnP_cons]
    by_cases h : c = '&'
    · subst h
      intro f hf
      simp only [beq_self_eq_true, if_true, List.mem_cons] at hf
      rcases hf with rfl | hf
      · simp
      · exact ih f hf
    · simp only [beq_iff_eq, h, if_false]
      cases hs : List.splitOnP (fun x => x == '&') cs with
      | nil => exact absurd hs (List.splitOnP_ne_nil _ _)
      | cons f0 fs =>
        rw [hs] at ih
        intro f hf
        simp only [List.modifyHead, List.mem_cons] at hf
        rcases hf with rfl | hf
        · intro hmem
          rcases List.mem_cons.1 hmem with e | e
          · exact h e.symm
          · exact ih f0 (List.mem_cons_self _ _) e
        · exact ih f (List.mem_cons_of_mem _ hf)

theorem tokens_spec (q : Str) : ∀ t ∈ tokens q, t ≠ [] ∧ '&' ∉ t := by
  intro t ht
  simp only [tokens, List.mem_filter] at ht
  refine ⟨?_, splitOn_no_amp q t ht.1⟩
  intro e
  simp [e] at ht

/-- The calls of `strtok_r` in the loop return the tokens of the text, as soon as the fuel
exceeds its length. -/
theorem strtokAll_eq (n : Nat) : ∀ (s : Str), s.length < n →
    strtokAll n (strtok_r s amp) = some (tokens s) := by
  induction n with
  | zero => intro s h; omega
  | succ n ih =>
    intro s h
    rcases strtok_r_amp_tokens s with ⟨h1, h2⟩ | ⟨t, rest, h1, _, h3, h4⟩
    · rw [h1, h2]; rfl
    · rw [h1, h3]
      simp only [strtokAll]
      rw [ih rest (by omega)]
      rfl

/-- C15: separators carry no content. A separator behind or in front of the query string, and a
second separator next to any separator, leave the outcome of the decoder as it is. The tokens
the loop of the decoder gets from `strtok_r` are the tokens of the query string: cut the string
at every separator into the fields between them, none of which holds a separator and which
give the string back when joined by separators; the tokens are the fields that are not
empty, in their order. -/
theorem C15_separators_carry_no_content (q a b : Str) :
    decodeQuery (q ++ ['&']) = decodeQuery q ∧
    decodeQuery ('&' :: q) = decodeQuery q ∧
    decodeQuery (a ++ '&' :: '&' :: b) = decodeQuery (a ++ '&' :: b) ∧
    strtokAll (q.length + 1) (strtok_r q amp) = some (tokens q) ∧
    (∀ t ∈ tokens q, t ≠ [] ∧ '&' ∉ t) ∧
    List.intercalate ['&'] (q.splitOn '&') = q ∧
    (∀ f ∈ q.splitOn '&', '&' ∉ f) ∧
    tokens q = (q.splitOn '&').filter (fun f => !f.isEmpty) := by
  refine ⟨?_, ?_, ?_, strtokAll_eq _ q (Nat.lt_succ_self _), tokens_spec q,
    List.intercalate_splitOn _ '&', splitOn_no_amp q, rfl⟩
  · apply decodeQuery_congr
    apply tokens_eq_of_survivors
    rw [tokens_append_amp, tokens_nil, List.append_nil]
  · apply decodeQuery_congr
    apply tokens_eq_of_survivors
    exact tokens_cons_amp q
  · apply decodeQuery_congr
    apply tokens_eq_of_survivors
    rw [tokens_append_amp, tokens_append_amp, tokens_cons_amp]

/-! ## The suffix object -/

theorem mem_objSet {β : Type} (o : List (Str × β)) (k : Str) (v : β) (x : Str × β)
    (h : x ∈ objSet o k v) : x ∈ o ∨ x = (k, v) := by
  induction o with
  | nil => simp [objSet] at h; exact Or.inr h
  | cons e o ih =>
    obtain ⟨k1, v1⟩ := e
    by_cases h1 : k1 = k
    · simp only [objSet, h1, if_true, List.mem_cons] at h
      rcases h with h | h
      · exact Or.inr h
      · exact Or.inl (List.mem_cons_of_mem _ h)
    · simp only [objSet, h1, if_false, List.mem_cons] at h
      rcases h with h | h
      · exact Or.inl (h ▸ List.mem_cons_self _ _)
      · rcases ih h with h | h
        · exact Or.inl (List.mem_cons_of_mem _ h)
        · exact Or.inr h

theorem objSet_ne_nil {β : Type} (o : List (Str × β)) (k : Str) (v : β) : objSet o k v ≠ [] := by
  cases o with
  | nil => simp [objSet]
  | cons e o =>
    obtain ⟨k1, v1⟩ := e
    by_cases h1 : k1 = k <;> simp [objSet, h1]

theorem mapFind_isSome_of_mem {β : Type} (o : List (Str × β)) (k : Str) (v : β)
    (h : (k, v) ∈ o) : (mapFind o k).isSome = true := by
  induction o with
  | nil => simp at h
  | cons e o ih =>
    obtain ⟨k1, v1⟩ := e
    by_cases h1 : k1 = k
    · simp [mapFind, h1]
    · simp only [mapFind, h1, if_false]
      rcases List.mem_cons.1 h with h | h
      · simp only [Prod.mk.injEq] at h
        exact absurd h.1.symm h1
      · exact ih h

theorem mem_of_mapFind {β : Type} (o : List (Str × β)) (k : Str) (v : β)
    (h : mapFind o k = some v) : (k, v) ∈ o := by
  induction o with
  | nil => simp [mapFind] at h
  | cons e o ih =>
    obtain ⟨k1, v1⟩ := e
    by_cases h1 : k1 = k
    · simp only [mapFind, h1, if_true, Option.some.injEq] at h
      simp [h1, h]
    · simp only [mapFind, h1, if_false] at h
      exact List.mem_cons_of_mem _ (ih h)

theorem mapFind_recordToken_qsSuffix (st : QueryState) (t k : Str) :
    mapFind (recordToken st t).qsSuffix k =
      (if tokenKey t = k then tokenMarker t else none).or (mapFind st.qsSuffix k) := by
  rw [recordToken_qsSuffix]
  cases hm : tokenMarker t with
  | none => simp
  | some m =>
    simp only [mapFind_objSet]
    by_cases hk : tokenKey t = k <;> simp [hk]

/-- The suffix entry of a key is the last marker cut from a token of that key, if there is one,
and the entry the key had before otherwise. -/
theorem foldl_qsSuffix (k : Str) : ∀ (ts : List Str) (st : QueryState),
    mapFind (ts.foldl recordToken st).qsSuffix k =
      (((ts.filter (fun t => tokenKey t = k)).filterMap tokenMarker).getLast?).or
        (mapFind st.qsSuffix k) := by
  intro ts
  induction ts with
  | nil => intro st; simp
  | cons t ts ih =>
    intro st
    rw [List.foldl_cons, ih, mapFind_recordToken_qsSuffix]
    by_cases hk : tokenKey t = k
    · cases hm : tokenMarker t with
      | none => simp [hk, hm, List.filter_cons, List.filterMap_cons]
      | some m =>
        simp only [hk, hm, List.filter_cons, List.filterMap_cons, decide_True, if_true]
        rw [List.getLast?_cons]
        cases (List.filterMap tokenMarker (List.filter (fun t => decide (tokenKey t = k)) ts)).getLast? <;> simp
    · simp [hk, List.filter_cons]

theorem foldl_arrayBrackets : ∀ (ts : List Str) (st : QueryState),
    (ts.foldl recordToken st).arrayBrackets =
      (st.arrayBrackets || ts.any (fun t => (tokenMarker t).isSome)) := by
  intro ts
  induction ts with
  | nil => intro st; simp
  | cons t ts ih =>
    intro st
    rw [List.foldl_cons, ih, recordToken_arrayBrackets]
    simp [Bool.or_assoc]

/-- The flag `arrayBrackets` is set exactly when the suffix object has an entry. -/
theorem foldl_arrayBrackets_iff : ∀ (ts : List Str) (st : QueryState),
    (st.arrayBrackets = true ↔ st.qsSuffix ≠ []) →
    ((ts.foldl recordToken st).arrayBrackets = true ↔ (ts.foldl recordToken st).qsSuffix ≠ []) := by
  intro ts
  induction ts with
  | nil => intro st h; exact h
  | cons t ts ih =>
    intro st h
    rw [List.foldl_cons]
    apply ih
    rw [recordToken_arrayBrackets, recordToken_qsSuffix]
    cases hm : tokenMarker t with
    | none => simpa using h
    | some m => simp [objSet_ne_nil]

theorem mem_foldl_qsSuffix (k m : Str) : ∀ (ts : List Str) (st : QueryState),
    (k, m) ∈ (ts.foldl recordToken st).qsSuffix →
      (k, m) ∈ st.qsSuffix ∨ ∃ t ∈ ts, tokenKey t = k ∧ tokenMarker t = some m := by
  intro ts
  induction ts with
  | nil => intro st h; exact Or.inl h
  | cons t ts ih =>
    intro st h
    rw [List.foldl_cons] at h
    rcases ih _ h with h1 | ⟨t2, ht2, h2⟩
    · rw [recordToken_qsSuffix] at h1
      cases hm : tokenMarker t with
      | none => rw [hm] at h1; exact Or.inl h1
      | some m2 =>
        rw [hm] at h1
        rcases mem_objSet _ _ _ _ h1 with h3 | h3
        · exact Or.inl h3
        · simp only [Prod.mk.injEq] at h3
          exact Or.inr ⟨t, List.mem_cons_self _ _, h3.1.symm, by rw [hm, h3.2]⟩
    · exact Or.inr ⟨t2, List.mem_cons_of_mem _ ht2, h2⟩

theorem finalState_qsSuffix (q k : Str) :
    mapFind (finalState q).qsSuffix k = (markersFor q k).getLast? := by
  unfold finalState markersFor
  rw [foldl_qsSuffix]
  simp [QueryState.init, mapFind]

theorem finalState_arrayBrackets_iff (q : Str) :
    (finalState q).arrayBrackets = true ↔ (finalState q).qsSuffix ≠ [] := by
  unfold finalState
  apply foldl_arrayBrackets_iff
  simp [QueryState.init]

theorem mem_finalState_qsSuffix (q k m : Str) (h : (k, m) ∈ (finalState q).qsSuffix) :
    ∃ t ∈ survivors q, tokenKey t = k ∧ tokenMarker t = some m := by
  unfold finalState at h
  rcases mem_foldl_qsSuffix k m _ _ h with h1 | h1
  · simp [QueryState.init] at h1
  · exact h1

/-! ## The marker of a key -/

/-- A marker is cut only from a raw key that is a text, not empty, followed by the marker. -/
theorem stripBrackets_some (raw m : Str) (h : (stripBrackets raw).2 = some m) :
    (m = BRACKETS ∨ m = ENCODED_BRACKETS) ∧ raw = (stripBrackets raw).1 ++ m ∧
      (stripBrackets raw).1 ≠ [] := by
  unfold stripBrackets at h ⊢
  simp only [] at h ⊢
  split at h
  · rename_i hc
    rw [if_pos hc]
    simp only [Option.some.injEq] at h
    subst h
    have hd := (strncmpEq_drop raw ENCODED_BRACKETS (le_of_lt hc.1)).1 hc.2
    refine ⟨Or.inr rfl, ?_, ?_⟩
    · conv_lhs => rw [← List.take_append_drop (raw.length - ENCODED_BRACKETS.length) raw]
      rw [hd]
    · intro e
      have := congrArg List.length e
      simp only [List.length_take, List.length_nil] at this
      have := hc.1
      omega
  · rename_i hc
    rw [if_neg hc]
    split at h
    · rename_i hc2
      rw [if_pos hc2]
      simp only [Option.some.injEq] at h
      subst h
      have hd := (strncmpEq_drop raw BRACKETS (le_of_lt hc2.1)).1 hc2.2
      refine ⟨Or.inl rfl, ?_, ?_⟩
      · conv_lhs => rw [← List.take_append_drop (raw.length - BRACKETS.length) raw]
        rw [hd]
      · intro e
        have := congrArg List.length e
        simp only [List.length_take, List.length_nil] at this
        have := hc2.1
        omega
    · cases h

theorem stripBrackets_none (raw : Str) (h : (stripBrackets raw).2 = none) :
    (stripBrackets raw).1 = raw := by
  unfold stripBrackets at h ⊢
  simp only [] at h ⊢
  split at h
  · cases h
  · rename_i hc
    rw [if_neg hc]
    split at h
    · cases h
    · rename_i hc2
      rw [if_neg hc2]

/-! ## C16: the suffix property -/

/-- C17: for every query string, every entry of the suffix object maps its key to one of the two
markers, some surviving token has the key followed by that marker as its raw key, and the key
is a key of `queryData` that holds an array and not a string; a key all of whose tokens kept
their raw key whole has no entry, and a token keeps its raw key whole when the raw key ends in
neither marker. -/
theorem C17_suffix_entries (q : Str) :
    ∃ d, decodeQuery q = some d ∧
      (∀ k m, (k, m) ∈ d.qsSuffix →
        (m = BRACKETS ∨ m = ENCODED_BRACKETS) ∧
        (∃ t ∈ survivors q, rawKey t = k ++ m) ∧
        (∃ vals, (k, QueryValue.array vals) ∈ d.queryData) ∧
        (∀ x, (k, QueryValue.string x) ∉ d.queryData)) ∧
      (∀ k, (∀ t ∈ survivors q, tokenKey t = k → tokenMarker t = none) →
        mapFind d.qsSuffix k = none ∧ ∀ m, (k, m) ∉ d.qsSuffix) ∧
      (∀ t, ¬ List.IsSuffix BRACKETS (rawKey t) → ¬ List.IsSuffix ENCODED_BRACKETS (rawKey t) →
        tokenMarker t = none) := by
  refine ⟨_, decodeQuery_eq q, ?_, ?_, ?_⟩
  · intro k m hkm
    show _ ∧ _ ∧ (∃ vals, (k, QueryValue.array vals) ∈ buildQueryData (finalState q)) ∧
      (∀ x, (k, QueryValue.string x) ∉ buildQueryData (finalState q))
    obtain ⟨t, ht, hk, hm⟩ := mem_finalState_qsSuffix q k m hkm
    obtain ⟨h1, h2, _⟩ := stripBrackets_some (rawKey t) m hm
    have hhas : objHas (finalState q).qsSuffix k = true :=
      mapFind_isSome_of_mem _ k m hkm
    have hval : queryValueOf (finalState q) k = QueryValue.array (valuesFor q k) := by
      rw [queryValueOf_finalState, if_pos (Or.inr hhas)]
    have hkin : k ∈ (survivors q).map tokenKey := hk ▸ List.mem_map_of_mem _ ht
    refine ⟨h1, ⟨t, ht, ?_⟩, ⟨valuesFor q k, ?_⟩, ?_⟩
    · rw [← hk]; exact h2
    · exact (mem_queryData q k _).2 ⟨hkin, hval.symm⟩
    · intro x hx
      have := ((mem_queryData q k _).1 hx).2
      rw [hval] at this
      cases this
  · intro k hk
    have hnone : ∀ m, (k, m) ∉ (finalState q).qsSuffix := by
      intro m hm
      obtain ⟨t, ht, hk2, hm2⟩ := mem_finalState_qsSuffix q k m hm
      rw [hk t ht hk2] at hm2
      cases hm2
    refine ⟨?_, hnone⟩
    show mapFind (finalState q).qsSuffix k = none
    cases hf : mapFind (finalState q).qsSuffix k with
    | none => rfl
    | some m => exact absurd (mem_of_mapFind _ k m hf) (hnone m)
  · intro t hb he
    cases hm : tokenMarker t with
    | none => rfl
    | some m =>
      obtain ⟨h1, h2, _⟩ := stripBrackets_some (rawKey t) m hm
      rcases h1 with rfl | rfl
      · exact absurd ⟨_, h2.symm⟩ hb
      · exact absurd ⟨_, h2.symm⟩ he

/-! ## C18: the last marker wins -/

/-- C18: for every query string and every key, the suffix entry of the key is the marker cut
from the last token of that key from which a marker was cut; tokens of the key without a marker
neither remove nor change it. `a[]=1&a%5B%5D=2` records the encoded marker under `a`, and
`a%5B%5D=1&a[]=2&a=3` records the literal marker under `a`, with the array of the three
values. -/
theorem C18_last_marker_wins (q k : Str) :
    ∃ d, decodeQuery q = some d ∧
      mapFind d.qsSuffix k =
        (((survivors q).filter (fun t => tokenKey t = k)).filterMap tokenMarker).getLast? ∧
      decodeQuery "a[]=1&a%5B%5D=2".toList =
        some { queryData := [("a".toList, QueryValue.array ["1".toList, "2".toList])],
               qsSuffix := [("a".toList, "%5B%5D".toList)], empty := false,
               arrayBrackets := true } ∧
      decodeQuery "a%5B%5D=1&a[]=2&a=3".toList =
        some { queryData :=
                 [("a".toList, QueryValue.array ["1".toList, "2".toList, "3".toList])],
               qsSuffix := [("a".toList, "[]".toList)], empty := false,
               arrayBrackets := true } :=
  ⟨_, decodeQuery_eq q, finalState_qsSuffix q k, by decide, by decide⟩

/-! ## C19: the characters of keys and values -/

theorem not_mem_takeWhile_ne (c : Char) (s : Str) : c ∉ s.takeWhile (fun x => x != c) := by
  induction s with
  | nil => simp
  | cons x xs ih =>
    by_cases h : x = c
    · simp [List.takeWhile_cons, h]
    · simp only [List.takeWhile_cons, bne_iff_ne, ne_eq, h, not_false_eq_true, decide_True,
        if_true, List.mem_cons, not_or]
      exact ⟨fun e => h e.symm, ih⟩

theorem mem_survivors (q t : Str) (h : t ∈ survivors q) :
    t ≠ [] ∧ '&' ∉ t ∧ survives t = true := by
  simp only [survivors, List.mem_filter] at h
  exact ⟨(tokens_spec q t h.1).1, (tokens_spec q t h.1).2, h.2⟩

theorem rawKey_ne_nil (t : Str) (ht : t ≠ []) (hs : survives t = true) : rawKey t ≠ [] := by
  cases t with
  | nil => exact absurd rfl ht
  | cons c cs =>
    rw [survives_cons] at hs
    have hc : c ≠ '=' := by simpa using hs
    simp [rawKey, List.takeWhile_cons, hc]

theorem mem_rawKey (t : Str) (c : Char) (h : c ∈ rawKey t) : c ∈ t :=
  (List.takeWhile_sublist _).subset h

theorem eq_not_mem_rawKey (t : Str) : '=' ∉ rawKey t := not_mem_takeWhile_ne '=' t

theorem mem_tokenKey (t : Str) (c : Char) (h : c ∈ tokenKey t) : c ∈ rawKey t := by
  cases hm : tokenMarker t with
  | none =>
    have := stripBrackets_none (rawKey t) hm
    unfold tokenKey at h
    rw [this] at h
    exact h
  | some m =>
    obtain ⟨_, h2, _⟩ := stripBrackets_some (rawKey t) m hm
    rw [h2]
    exact List.mem_append_left _ h

theorem tokenKey_ne_nil (t : Str) (ht : t ≠ []) (hs : survives t = true) : tokenKey t ≠ [] := by
  cases hm : tokenMarker t with
  | none =>
    have := stripBrackets_none (rawKey t) hm
    unfold tokenKey
    rw [this]
    exact rawKey_ne_nil t ht hs
  | some m => exact (stripBrackets_some (rawKey t) m hm).2.2

theorem mem_tokenValue (t : Str) (c : Char) (h : c ∈ tokenValue t) : c ∈ t := by
  rw [tokenValue_eq] at h
  have h1 := (List.takeWhile_sublist _).subset h
  have h2 := (List.dropWhile_sublist _).subset h1
  unfold keyRest at h2
  have h3 := List.mem_of_mem_drop h2
  exact (List.dropWhile_sublist _).subset h3

theorem eq_not_mem_tokenValue (t : Str) : '=' ∉ tokenValue t := by
  rw [tokenValue_eq]
  exact not_mem_takeWhile_ne '=' _

theorem tokenKey_clean (q t : Str) (h : t ∈ survivors q) :
    tokenKey t ≠ [] ∧ '&' ∉ tokenKey t ∧ '=' ∉ tokenKey t := by
  obtain ⟨h1, h2, h3⟩ := mem_survivors q t h
  exact ⟨tokenKey_ne_nil t h1 h3, fun hc => h2 (mem_rawKey t _ (mem_tokenKey t _ hc)),
    fun hc => eq_not_mem_rawKey t (mem_tokenKey t _ hc)⟩

theorem valuesFor_clean (q k x : Str) (h : x ∈ valuesFor q k) : '&' ∉ x ∧ '=' ∉ x := by
  simp only [valuesFor, List.mem_map, List.mem_filter] at h
  obtain ⟨t, ⟨ht, _⟩, rfl⟩ := h
  obtain ⟨_, h2, _⟩ := mem_survivors q t ht
  exact ⟨fun hc => h2 (mem_tokenValue t _ hc), eq_not_mem_tokenValue t⟩

theorem queryValueOf_values (q k : Str) (hk : k ∈ (survivors q).map tokenKey) :
    (queryValueOf (finalState q) k).values = valuesFor q k := by
  have hne := valuesFor_ne_nil q k hk
  rw [queryValueOf_finalState]
  split
  · rfl
  · rename_i hcond
    have hlen : ¬ (valuesFor q k).length > 1 := fun h => hcond (Or.inl h)
    cases hv : valuesFor q k with
    | nil => exact absurd hv hne
    | cons x xs =>
      cases xs with
      | nil => rfl
      | cons y ys => rw [hv] at hlen; simp at hlen

/-- C19: for every query string, every key of `queryData` and every key of the suffix object
is a text that is not empty and holds neither the separator nor the equals sign, and every
string of `queryData`, alone or in an array, holds neither of them; the key of a token that is
not empty and does not start with the equals sign is never empty, with or without a marker cut
from it. -/
theorem C19_keys_and_values_clean (q : Str) :
    ∃ d, decodeQuery q = some d ∧
      (∀ k v, (k, v) ∈ d.queryData →
        k ≠ [] ∧ '&' ∉ k ∧ '=' ∉ k ∧ ∀ x ∈ v.values, '&' ∉ x ∧ '=' ∉ x) ∧
      (∀ k m, (k, m) ∈ d.qsSuffix → k ≠ [] ∧ '&' ∉ k ∧ '=' ∉ k) ∧
      (∀ t : Str, t ≠ [] → t.head? ≠ some '=' →
        (stripBrackets (t.takeWhile (fun c => c != '='))).1 ≠ []) := by
  refine ⟨_, decodeQuery_eq q, ?_, ?_, ?_⟩
  · intro k v hkv
    obtain ⟨hk, rfl⟩ := (mem_queryData q k v).1 hkv
    obtain ⟨t, ht, rfl⟩ := List.mem_map.1 hk
    obtain ⟨h1, h2, h3⟩ := tokenKey_clean q t ht
    refine ⟨h1, h2, h3, ?_⟩
    intro x hx
    rw [queryValueOf_values q _ hk] at hx
    exact valuesFor_clean q _ x hx
  · intro k m hkm
    obtain ⟨t, ht, rfl, _⟩ := mem_finalState_qsSuffix q k m hkm
    exact tokenKey_clean q t ht
  · intro t ht hs
    have hsv : survives t = true := by
      simp only [survives, bne_iff_ne]; exact hs
    exact tokenKey_ne_nil t ht hsv

/-! ## C13: the round trip -/

/-- The key, marker and value of a canonical token are those it was built from, when the key
takes the marker as its own. -/
theorem canonToken_spec (k : Str) (m : Option Str) (x : Str)
    (hk : k ≠ []) (hk1 : '&' ∉ k) (hk2 : '=' ∉ k) (hx1 : '&' ∉ x) (hx2 : '=' ∉ x)
    (hm : ∀ m1, m = some m1 → m1 = BRACKETS ∨ m1 = ENCODED_BRACKETS)
    (hnone : m = none → stripBrackets k = (k, none)) :
    canonToken k m x ≠ [] ∧ '&' ∉ canonToken k m x ∧ survives (canonToken k m x) = true ∧
      tokenKey (canonToken k m x) = k ∧ tokenMarker (canonToken k m x) = m ∧
      tokenValue (canonToken k m x) = x := by
  have hmm1 : '&' ∉ m.getD [] := by
    cases m with
    | none => simp
    | some m1 => rcases hm m1 rfl with rfl | rfl <;> decide
  have hmm2 : '=' ∉ m.getD [] := by
    cases m with
    | none => simp
    | some m1 => rcases hm m1 rfl with rfl | rfl <;> decide
  have hkm : '=' ∉ k ++ m.getD [] := by
    intro h
    rcases List.mem_append.1 h with h | h
    · exact hk2 h
    · exact hmm2 h
  have hraw : rawKey (canonToken k m x) = k ++ m.getD [] := by
    unfold rawKey canonToken
    rw [List.takeWhile_append_of_pos, List.takeWhile_cons]
    · simp
    · intro c hc
      have : c ≠ '=' := fun e => hkm (e ▸ hc)
      simp [this]
  have hrest : keyRest (canonToken k m x) = x := by
    unfold keyRest canonToken
    rw [List.dropWhile_append_of_pos, List.dropWhile_cons]
    · simp
    · intro c hc
      have : c ≠ '=' := fun e => hkm (e ▸ hc)
      simp [this]
  have hstrip : stripBrackets (k ++ m.getD []) = (k, m) := by
    cases m with
    | none => simpa using hnone rfl
    | some m1 =>
      rcases hm m1 rfl with rfl | rfl
      · exact stripBrackets_literal k hk
      · exact stripBrackets_encoded k hk
  refine ⟨?_, ?_, ?_, ?_, ?_, ?_⟩
  · simp [canonToken]
  · intro h
    simp only [canonToken, List.mem_append, List.mem_cons] at h
    rcases h with (h | h) | h | h
    · exact hk1 h
    · exact hmm1 h
    · exact absurd h (by decide)
    · exact hx1 h
  · cases k with
    | nil => exact absurd rfl hk
    | cons c cs =>
      have hc : c ≠ '=' := fun e => hk2 (e ▸ List.mem_cons_self _ _)
      simp only [canonToken, List.cons_append, survives_cons]
      simp [hc]
  · simp [tokenKey, hraw, hstrip]
  · simp [tokenMarker, hraw, hstrip]
  · rw [tokenValue_eq, hrest, dropWhile_eq_self_of_not_mem _ hx2,
      takeWhile_eq_self_of_not_mem _ hx2]

/-- Among the tokens listed key by key, those of one key are the tokens listed for it. -/
theorem filter_flatMap_key (f : Str → List Str) (k : Str) : ∀ (K : List Str), K.Nodup →
    (∀ k1 ∈ K, ∀ t ∈ f k1, tokenKey t = k1) →
    (K.flatMap f).filter (fun t => tokenKey t = k) = if k ∈ K then f k else [] := by
  intro K
  induction K with
  | nil => intro _ _; simp
  | cons k0 K ih =>
    intro hnd hf
    rw [List.nodup_cons] at hnd
    rw [List.flatMap_cons, List.filter_append,
      ih hnd.2 (fun k1 hk1 => hf k1 (List.mem_cons_of_mem _ hk1))]
    by_cases hk : k = k0
    · subst hk
      have h1 : (f k).filter (fun t => tokenKey t = k) = f k := by
        rw [List.filter_eq_self]
        intro t ht
        simp [hf k (List.mem_cons_self _ _) t ht]
      simp [h1, hnd.1]
    · have h1 : (f k0).filter (fun t => tokenKey t = k) = [] := by
        rw [List.filter_eq_nil_iff]
        intro t ht
        have := hf k0 (List.mem_cons_self _ _) t ht
        have hk2 : ¬ k0 = k := fun e => hk e.symm
        simp [this, hk2]
      simp [h1, hk]

theorem foldl_addKey_of_mem (k : Str) : ∀ (l acc : List Str), (∀ x ∈ l, x = k) → k ∈ acc →
    l.foldl addKey acc = acc := by
  intro l
  induction l with
  | nil => intro acc _ _; rfl
  | cons x xs ih =>
    intro acc hx hk
    have : x = k := hx x (List.mem_cons_self _ _)
    subst this
    rw [List.foldl_cons]
    have : addKey acc x = acc := by simp [addKey, hk]
    rw [this]
    exact ih acc (fun y hy => hx y (List.mem_cons_of_mem _ hy)) hk

theorem foldl_addKey_block (k : Str) (l acc : List Str) (hl : l ≠ []) (hx : ∀ x ∈ l, x = k)
    (hk : k ∉ acc) : l.foldl addKey acc = acc ++ [k] := by
  cases l with
  | nil => exact absurd rfl hl
  | cons x xs =>
    have : x = k := hx x (List.mem_cons_self _ _)
    subst this
    rw [List.foldl_cons]
    have : addKey acc x = acc ++ [x] := by simp [addKey, hk]
    rw [this]
    exact foldl_addKey_of_mem x xs _ (fun y hy => hx y (List.mem_cons_of_mem _ hy)) (by simp)

/-- The first-seen keys of tokens listed key by key, for distinct keys, are those keys. -/
theorem foldl_addKey_flatMap (f : Str → List Str) : ∀ (K acc : List Str), K.Nodup →
    (∀ k ∈ K, k ∉ acc) → (∀ k ∈ K, f k ≠ [] ∧ ∀ t ∈ f k, tokenKey t = k) →
    ((K.flatMap f).map tokenKey).foldl addKey acc = acc ++ K := by
  intro K
  induction K with
  | nil => intro acc _ _ _; simp
  | cons k0 K ih =>
    intro acc hnd hacc hf
    rw [List.nodup_cons] at hnd
    rw [List.flatMap_cons, List.map_append, List.foldl_append]
    have hb : ((f k0).map tokenKey).foldl addKey acc = acc ++ [k0] := by
      apply foldl_addKey_block
      · simpa using (hf k0 (List.mem_cons_self _ _)).1
      · intro x hx
        obtain ⟨t, ht, rfl⟩ := List.mem_map.1 hx
        exact (hf k0 (List.mem_cons_self _ _)).2 t ht
      · exact hacc k0 (List.mem_cons_self _ _)
    rw [hb, ih (acc ++ [k0]) hnd.2 ?_ (fun k hk => hf k (List.mem_cons_of_mem _ hk))]
    · simp
    · intro k hk hmem
      rcases List.mem_append.1 hmem with h | h
      · exact hacc k (List.mem_cons_of_mem _ hk) h
      · have : k = k0 := by simpa using h
        exact hnd.1 (this ▸ hk)

theorem firstSeen_flatMap (f : Str → List Str) (K : List Str) (hnd : K.Nodup)
    (hf : ∀ k ∈ K, f k ≠ [] ∧ ∀ t ∈ f k, tokenKey t = k) :
    firstSeen ((K.flatMap f).map tokenKey) = K := by
  unfold firstSeen
  rw [foldl_addKey_flatMap f K [] hnd (fun _ _ => by simp) hf]
  simp

/-- The tokens of tokens joined by separators are those tokens, when none of them is empty or
holds a separator. -/
theorem tokens_intercalate (ts : List Str) (h : ∀ t ∈ ts, t ≠ [] ∧ '&' ∉ t) :
    tokens (List.intercalate ['&'] ts) = ts := by
  cases hts : ts with
  | nil => rfl
  | cons t0 ts0 =>
    rw [← hts]
    unfold tokens
    rw [List.splitOn_intercalate _ '&' (fun l hl => (h l hl).2) (by simp [hts])]
    rw [List.filter_eq_self]
    intro t ht
    have := (h t ht).1
    cases t with
    | nil => exact absurd rfl this
    | cons c cs => rfl

theorem ne_nil_iff_exists_mapFind {β : Type} (o : List (Str × β)) :
    o ≠ [] ↔ ∃ k, (mapFind o k).isSome = true := by
  constructor
  · intro h
    cases o with
    | nil => exact absurd rfl h
    | cons e o =>
      obtain ⟨k, v⟩ := e
      exact ⟨k, by simp [mapFind]⟩
  · rintro ⟨k, hk⟩ e
    subst e
    simp [mapFind] at hk

theorem suffix_entry_spec (q k m : Str) (h : mapFind (finalState q).qsSuffix k = some m) :
    (m = BRACKETS ∨ m = ENCODED_BRACKETS) ∧ k ∈ (survivors q).map tokenKey := by
  obtain ⟨t, ht, hk, hm⟩ := mem_finalState_qsSuffix q k m (mem_of_mapFind _ k m h)
  exact ⟨(stripBrackets_some (rawKey t) m hm).1, hk ▸ List.mem_map_of_mem _ ht⟩

theorem stripBrackets_of_no_entry (q k : Str) (hk : k ∈ (survivors q).map tokenKey)
    (h : mapFind (finalState q).qsSuffix k = none) : stripBrackets k = (k, none) := by
  obtain ⟨t, ht, htk⟩ := List.mem_map.1 hk
  rw [finalState_qsSuffix, List.getLast?_eq_none_iff] at h
  have hmk : tokenMarker t = none := by
    unfold markersFor at h
    rw [List.filterMap_eq_nil_iff] at h
    exact h t (by simp [List.mem_filter, ht, htk])
  have h1 := stripBrackets_none (rawKey t) hmk
  have h2 : rawKey t = k := by
    rw [← htk]; exact h1.symm
  have hmk2 : (stripBrackets (rawKey t)).2 = none := hmk
  rw [h2] at h1 hmk2
  exact Prod.ext h1 hmk2

/-- The canonical token of a key of the outcome and one of its values is a surviving token with
that key, the suffix entry of the key as its marker, and that value. -/
theorem canonToken_of_key (q k x : Str) (hk : k ∈ (survivors q).map tokenKey)
    (hx : x ∈ valuesFor q k) :
    canonToken k (mapFind (finalState q).qsSuffix k) x ≠ [] ∧
      '&' ∉ canonToken k (mapFind (finalState q).qsSuffix k) x ∧
      survives (canonToken k (mapFind (finalState q).qsSuffix k) x) = true ∧
      tokenKey (canonToken k (mapFind (finalState q).qsSuffix k) x) = k ∧
      tokenMarker (canonToken k (mapFind (finalState q).qsSuffix k) x) =
        mapFind (finalState q).qsSuffix k ∧
      tokenValue (canonToken k (mapFind (finalState q).qsSuffix k) x) = x := by
  obtain ⟨t, ht, htk⟩ := List.mem_map.1 hk
  obtain ⟨h1, h2, h3⟩ := tokenKey_clean q t ht
  rw [htk] at h1 h2 h3
  obtain ⟨h4, h5⟩ := valuesFor_clean q k x hx
  exact canonToken_spec k _ x h1 h2 h3 h4 h5
    (fun m1 hm1 => (suffix_entry_spec q k m1 hm1).1)
    (stripBrackets_of_no_entry q k hk)

/-- The canonical tokens of the outcome of the decoder, key by key. -/
theorem canonTokens_finalState (q : Str) :
    canonTokens { queryData := buildQueryData (finalState q),
                  qsSuffix := (finalState q).qsSuffix,
                  empty := (finalState q).empty,
                  arrayBrackets := (finalState q).arrayBrackets } =
      (firstSeen ((survivors q).map tokenKey)).flatMap
        (fun k => (valuesFor q k).map (canonToken k (mapFind (finalState q).qsSuffix k))) := by
  unfold canonTokens
  simp only []
  rw [finalState_queryData, List.flatMap_map]
  apply List.flatMap_congr
  intro k hk
  simp only [Function.comp]
  rw [queryValueOf_values q k ((mem_firstSeen _ _).1 hk)]

theorem decodeQuery_eq_outcome (q : Str) : decodeQuery q = some (outcome q) := decodeQuery_eq q

theorem canonTokens_outcome (q : Str) :
    canonTokens (outcome q) =
      (firstSeen ((survivors q).map tokenKey)).flatMap
        (fun k => (valuesFor q k).map (canonToken k (mapFind (finalState q).qsSuffix k))) :=
  canonTokens_finalState q

theorem mem_canonTokens (q t : Str) (h : t ∈ canonTokens (outcome q)) :
    ∃ k x, k ∈ (survivors q).map tokenKey ∧ x ∈ valuesFor q k ∧
      t = canonToken k (mapFind (finalState q).qsSuffix k) x := by
  rw [canonTokens_outcome, List.mem_flatMap] at h
  obtain ⟨k, hk, ht⟩ := h
  obtain ⟨x, hx, rfl⟩ := List.mem_map.1 ht
  exact ⟨k, x, (mem_firstSeen _ _).1 hk, hx, rfl⟩

theorem survivors_canon (q : Str) : survivors (canon (outcome q)) = canonTokens (outcome q) := by
  unfold survivors canon
  rw [tokens_intercalate, List.filter_eq_self]
  · intro t ht
    obtain ⟨k, x, hk, hx, rfl⟩ := mem_canonTokens q t ht
    exact (canonToken_of_key q k x hk hx).2.2.1
  · intro t ht
    obtain ⟨k, x, hk, hx, rfl⟩ := mem_canonTokens q t ht
    exact ⟨(canonToken_of_key q k x hk hx).1, (canonToken_of_key q k x hk hx).2.1⟩

theorem canon_blocks (q : Str) : ∀ k ∈ firstSeen ((survivors q).map tokenKey),
    (valuesFor q k).map (canonToken k (mapFind (finalState q).qsSuffix k)) ≠ [] ∧
    ∀ t ∈ (valuesFor q k).map (canonToken k (mapFind (finalState q).qsSuffix k)),
      tokenKey t = k := by
  intro k hk
  have hk2 := (mem_firstSeen _ _).1 hk
  refine ⟨?_, ?_⟩
  · simpa using valuesFor_ne_nil q k hk2
  · intro t ht
    obtain ⟨x, hx, rfl⟩ := List.mem_map.1 ht
    exact (canonToken_of_key q k x hk2 hx).2.2.2.1

theorem keys_canon (q : Str) :
    firstSeen ((survivors (canon (outcome q))).map tokenKey) =
      firstSeen ((survivors q).map tokenKey) := by
  rw [survivors_canon, canonTokens_outcome]
  exact firstSeen_flatMap _ _ (firstSeen_nodup _) (canon_blocks q)

theorem filter_canon (q k : Str) :
    (survivors (canon (outcome q))).filter (fun t => tokenKey t = k) =
      if k ∈ (survivors q).map tokenKey then
        (valuesFor q k).map (canonToken k (mapFind (finalState q).qsSuffix k))
      else [] := by
  rw [survivors_canon, canonTokens_outcome,
    filter_flatMap_key _ k _ (firstSeen_nodup _) (fun k1 hk1 => (canon_blocks q k1 hk1).2)]
  by_cases hk : k ∈ (survivors q).map tokenKey
  · rw [if_pos hk, if_pos ((mem_firstSeen _ _).2 hk)]
  · rw [if_neg hk, if_neg (fun h => hk ((mem_firstSeen _ _).1 h))]

theorem valuesFor_canon (q k : Str) (hk : k ∈ (survivors q).map tokenKey) :
    valuesFor (canon (outcome q)) k = valuesFor q k := by
  unfold valuesFor
  rw [filter_canon, if_pos hk, List.map_map]
  conv_rhs => rw [← List.map_id ((List.filter (fun t => tokenKey t = k) (survivors q)).map tokenValue)]
  apply List.map_congr_left
  intro x hx
  exact (canonToken_of_key q k x hk hx).2.2.2.2.2

theorem qsSuffix_canon (q k : Str) :
    mapFind (finalState (canon (outcome q))).qsSuffix k = mapFind (finalState q).qsSuffix k := by
  rw [finalState_qsSuffix (canon (outcome q))]
  unfold markersFor
  rw [filter_canon]
  by_cases hk : k ∈ (survivors q).map tokenKey
  · rw [if_pos hk]
    cases hm : mapFind (finalState q).qsSuffix k with
    | none =>
      rw [List.getLast?_eq_none_iff, List.filterMap_eq_nil_iff]
      intro t ht
      obtain ⟨x, hx, rfl⟩ := List.mem_map.1 ht
      have := (canonToken_of_key q k x hk hx).2.2.2.2.1
      rw [hm] at this
      exact this
    | some m =>
      have hall : ((valuesFor q k).map (canonToken k (some m))).filterMap tokenMarker =
          (valuesFor q k).map (fun _ => m) := by
        rw [List.filterMap_map]
        rw [← List.filterMap_eq_map]
        apply List.filterMap_congr
        intro x hx
        have := (canonToken_of_key q k x hk hx).2.2.2.2.1
        rw [hm] at this
        simpa using this
      rw [hall, List.getLast?_map]
      cases hv : (valuesFor q k).getLast? with
      | none =>
        rw [List.getLast?_eq_none_iff] at hv
        exact absurd hv (valuesFor_ne_nil q k hk)
      | some x => rfl
  · rw [if_neg hk]
    cases hm : mapFind (finalState q).qsSuffix k with
    | none => rfl
    | some m => exact absurd (suffix_entry_spec q k m hm).2 hk

theorem survivors_isEmpty_canon (q : Str) :
    (survivors (canon (outcome q))).isEmpty = (survivors q).isEmpty := by
  cases hs : survivors q with
  | nil =>
    rw [survivors_canon, canonTokens_outcome, hs]
    rfl
  | cons t ts =>
    have hk : tokenKey t ∈ firstSeen ((survivors q).map tokenKey) :=
      (mem_firstSeen _ _).2 (List.mem_map_of_mem _ (hs ▸ List.mem_cons_self _ _))
    rw [← keys_canon, mem_firstSeen] at hk
    cases hc : survivors (canon (outcome q)) with
    | nil => rw [hc] at hk; simp at hk
    | cons t1 ts1 => rfl

/-- C13: the round trip. For every query string, the decoder returns on it and on the canonical
form of its outcome (the keys of `queryData` in their order and, for each key, its values in
their order, each as key, suffix entry of the key if any, equals sign and value, joined by the
separator), and the second outcome has the same `queryData` (keys in the same order, the same
values in the same order, a string where there was a string and an array where there was an
array), the same suffix entry for every key, and the same two flags. -/
theorem C13_round_trip (q : Str) :
    ∃ d d1, decodeQuery q = some d ∧ decodeQuery (canon d) = some d1 ∧
      d1.queryData = d.queryData ∧
      (∀ k, mapFind d1.qsSuffix k = mapFind d.qsSuffix k) ∧
      d1.empty = d.empty ∧ d1.arrayBrackets = d.arrayBrackets ∧
      (decodeQuery "b=2&a%5B%5D=1&b=3&=z&a[]=4".toList).map canon =
        some "b=2&b=3&a[]=1&a[]=4".toList := by
  refine ⟨outcome q, outcome (canon (outcome q)), decodeQuery_eq_outcome q,
    decodeQuery_eq_outcome _, ?_, qsSuffix_canon q, ?_, ?_, by decide⟩
  · show buildQueryData (finalState (canon (outcome q))) = buildQueryData (finalState q)
    rw [finalState_queryData, finalState_queryData, keys_canon]
    apply List.map_congr_left
    intro k hk
    have hk2 := (mem_firstSeen _ _).1 hk
    rw [queryValueOf_finalState, queryValueOf_finalState, valuesFor_canon q k hk2]
    simp only [objHas, qsSuffix_canon]
  · show (finalState (canon (outcome q))).empty = (finalState q).empty
    rw [finalState_empty, finalState_empty, survivors_isEmpty_canon]
  · show (finalState (canon (outcome q))).arrayBrackets = (finalState q).arrayBrackets
    rw [Bool.eq_iff_iff, finalState_arrayBrackets_iff, finalState_arrayBrackets_iff,
      ne_nil_iff_exists_mapFind, ne_nil_iff_exists_mapFind]
    simp only [qsSuffix_canon]

end UriParser

